import Mathlib

/-!
Verification of the configuration-text mutation engine of apm_go.

Go strings are modelled as `List Char`; files are modelled by their content,
and file IO as content-in / content-out.  Every definition below is a direct
transcription of the corresponding Go function from `src/packages.go`,
`src/list_installed.go` and `src/installationlocations.go`.
-/

set_option maxRecDepth 8000

namespace Apm

/-- Characters of a Go string; source strings are modelled as lists of characters. -/
abbrev Str := List Char

/-- Whitespace recognized by Go's strings.TrimSpace (unicode.IsSpace: ASCII
whitespace plus U+0085 and U+00A0). -/
def isGoSpace (c : Char) : Bool :=
  c = ' ' || c = '\t' || c = '\n' || c = Char.ofNat 11 || c = Char.ofNat 12 || c = '\r' ||
  c = Char.ofNat 0x85 || c = Char.ofNat 0xA0

/-- Go strings.TrimSpace: strip leading and trailing whitespace. -/
def trimSpace (s : Str) : Str :=
  ((s.dropWhile isGoSpace).reverse.dropWhile isGoSpace).reverse

/-- Go strings.Contains(l, sub): sub occurs as a contiguous substring of l
(always true for sub = ""). -/
def containsSub : Str → Str → Bool
  | [], sub => sub.isEmpty
  | l@(_ :: t), sub => sub.isPrefixOf l || containsSub t sub

/-- Go strings.Index(s, sub): byte index of the first occurrence of sub in s
(`none` models the -1 result). -/
def indexOfSub : Str → Str → Option Nat
  | [], sub => if sub.isEmpty then some 0 else none
  | s@(_ :: t), sub => if sub.isPrefixOf s then some 0 else (indexOfSub t sub).map (· + 1)

/-- Go strings.Split(s, sep) for a one-character separator (the only use in the
sources: separators "\n" and "\""). -/
def splitOnChar (ch : Char) : Str → List Str
  | [] => [[]]
  | c :: t =>
    if c = ch then [] :: splitOnChar ch t
    else
      match splitOnChar ch t with
      | [] => [[c]]
      | l :: ls => (c :: l) :: ls

/-- The line list of a file content, as computed by strings.Split(content, "\n"). -/
def linesOf (content : Str) : List Str := splitOnChar '\n' content

/-- Go strings.Join(ls, sep) for a one-character separator. -/
def joinWith (sep : Char) : List Str → Str
  | [] => []
  | [l] => l
  | l :: l' :: ls => l ++ sep :: joinWith sep (l' :: ls)

/-- Index of the first list element satisfying p (the `for i, l := range` search
loops of the Go sources). -/
def findFirst (p : α → Bool) : List α → Option Nat
  | [] => none
  | a :: l => if p a then some 0 else (findFirst p l).map (· + 1)

/-- The InstallationMethod enumeration (src/utils.go). -/
inductive InstallationMethod where
  | nixEnv
  | flatpak
  | homeManager
deriving DecidableEq, Repr

/-- The InsertStatus enumeration of insertIntoNixBlock (src/packages.go). -/
inductive InsertStatus where
  | error
  | added
  | alreadyPresent
deriving DecidableEq, Repr

/-- blockNameForMethod (src/packages.go): the config block label of a method. -/
def blockNameForMethod : InstallationMethod → Str
  | .nixEnv => "environment.systemPackages".toList
  | .flatpak => "services.flatpak.packages".toList
  | .homeManager => "home.packages".toList

/-- The one-character string "[". -/
def openBracketStr : Str := ['[']

/-- The one-character string "]". -/
def closeBracketStr : Str := [']']

/-- The literal "appId". -/
def appIdTag : Str := "appId".toList

/-- Go strings.Split(entry, "\"")[1]: the text between the first and second
double quote of the entry.  The Go code indexes blindly and would panic on an
entry with no quote; entries built by buildEntry always contain quotes, and we
default to [] in the impossible case. -/
def quoteSegment (entry : Str) : Str := ((splitOnChar '"' entry).drop 1).headD []

/-- The three line searches of insertIntoNixBlock (src/packages.go lines
285-320): the first line containing the block label, the first line at or after
it containing "[", and the first line at or after that containing "]".  Any
failing search makes insertIntoNixBlock return InsertError. -/
def blockScan (lines : List Str) (blockName : Str) : Option (Nat × Nat × Nat) :=
  match findFirst (fun l => containsSub l blockName) lines with
  | none => none
  | some b =>
    match findFirst (fun l => containsSub l openBracketStr) (lines.drop b) with
    | none => none
    | some ob =>
      match findFirst (fun l => containsSub l closeBracketStr) (lines.drop (b + ob)) with
      | none => none
      | some cb => some (b, b + ob, b + ob + cb)

/-- The already-present test applied to one line strictly between the
delimiters (src/packages.go lines 322-339): substring / appId match for the
Flatpak method, exact trimmed-line match otherwise. -/
def presenceLine (method : InstallationMethod) (entry : Str) (l : Str) : Bool :=
  match method with
  | .flatpak => containsSub l entry || (containsSub l appIdTag && containsSub l (quoteSegment entry))
  | _ => trimSpace l == entry

/-- Four spaces of indentation used for the spliced entry line. -/
def spaces4 : Str := [' ', ' ', ' ', ' ']

/-- insertIntoNixBlock (src/packages.go lines 278-356), with file IO modelled
as content in / content out: on the error and already-present paths the file is
not written (content returned unchanged), on the added path the whole new
content is written. -/
def insertIntoNixBlock (content blockName entry : Str) (method : InstallationMethod) :
    InsertStatus × Str :=
  let lines := linesOf content
  match blockScan lines blockName with
  | none => (.error, content)
  | some (_, o, c) =>
    let scanned := (lines.drop (o + 1)).take (c - (o + 1))
    if scanned.any (presenceLine method entry) then (.alreadyPresent, content)
    else (.added, joinWith '\n' (lines.take c ++ [spaces4 ++ entry] ++ lines.drop c))

/-- bufio.ScanLines strips one trailing carriage return from each scanned line. -/
def dropCR (s : Str) : Str :=
  if s.getLast? = some '\r' then s.dropLast else s

/-- bufio.Scanner with ScanLines yields the newline-separated segments of the
content, without the empty token that a trailing newline would produce, each
with a trailing carriage return stripped. -/
def scanLines (content : Str) : List Str :=
  let ls := linesOf content
  (if ls.getLast? = some [] then ls.dropLast else ls).map dropCR

/-- Go strip of a trailing comment: trimmed[:strings.Index(trimmed, "#")] when
"#" occurs, the unchanged string otherwise. -/
def stripComment (s : Str) : Str := s.takeWhile (· ≠ '#')

/-- Go strings.TrimRight(s, " ]"): strip trailing spaces and closing brackets. -/
def trimRightSpaceBracket (s : Str) : Str :=
  (s.reverse.dropWhile (fun c => c = ' ' || c = ']')).reverse

/-- Entries captured from the line that carries the block label and "[" in
readBlockEntries (src/list_installed.go lines 59-75): any non-empty text after
the bracket, with comments and trailing " ]" stripped. -/
def openLineEntries (line : Str) : List Str :=
  let afterBracket := (line.dropWhile (· ≠ '[')).drop 1
  let t := trimSpace afterBracket
  if t ≠ [] && !(closeBracketStr.isPrefixOf t) then
    let t := trimRightSpaceBracket (stripComment t)
    if t ≠ [] then [trimSpace t] else []
  else []

/-- Entries captured from the closing line in readBlockEntries
(src/list_installed.go lines 81-94): any non-empty comment-stripped text before
the "]". -/
def closeLineEntries (line : Str) : List Str :=
  let t := trimSpace (line.takeWhile (· ≠ ']'))
  if t ≠ [] then
    let t := stripComment t
    if t ≠ [] then [trimSpace t] else []
  else []

/-- Entries captured from an interior block line in readBlockEntries
(src/list_installed.go lines 96-108): the trimmed comment-stripped line unless
empty or a bare "[". -/
def midLineEntries (line : Str) : List Str :=
  let t := trimSpace line
  if t = [] then []
  else
    let t := trimSpace (stripComment t)
    if t = [] || t = openBracketStr then [] else [t]

/-- The scanner loop of readBlockEntries (src/list_installed.go lines 55-110):
outside the block, a line containing both the label and "[" opens it (a label
line without "[" never opens the block); inside, the first line containing "]"
ends the scan. -/
def readLoop (blockName : Str) : List Str → Bool → List Str
  | [], _ => []
  | line :: rest, false =>
    if containsSub line blockName then
      if containsSub line openBracketStr then
        openLineEntries line ++ readLoop blockName rest true
      else readLoop blockName rest false
    else readLoop blockName rest false
  | line :: rest, true =>
    if containsSub line closeBracketStr then closeLineEntries line
    else midLineEntries line ++ readLoop blockName rest true

/-- readBlockEntries (src/list_installed.go lines 45-115) on a file content. -/
def readBlockEntries (content blockName : Str) : List Str :=
  readLoop blockName (scanLines content) false

/-- buildEntry (src/packages.go lines 213-232): the textual package reference
written into a block.  The Go default branch is unreachable for the
three-valued method enumeration, so the non-Flatpak arm covers HomeManager and
NixEnv. -/
def buildEntry (pkgName : Str) (method : InstallationMethod) (unstable : Bool) : Str :=
  match method with
  | .flatpak => "\x7b appId = \"".toList ++ pkgName ++ "\"; origin = \"flathub\"; \x7d".toList
  | _ =>
    if unstable then
      if "unstable.".toList.isPrefixOf pkgName then pkgName
      else "unstable.".toList ++ pkgName
    else if "pkgs.".toList.isPrefixOf pkgName || "unstable.".toList.isPrefixOf pkgName then pkgName
    else "pkgs.".toList ++ pkgName

/-- A configuration file of the tree: its path and whole content. -/
structure NixFile where
  path : Str
  content : Str
deriving DecidableEq, Repr

/-- The ".nix" suffix test applied by ListFilePaths and the per-file loops. -/
def isNixPath (p : Str) : Bool := ".nix".toList.isSuffixOf p

/-- ListInstalledPackages (src/list_installed.go lines 10-42): collect the
block entries of the method's block across every .nix file of the tree. -/
def listInstalledPackages (tree : List NixFile) (method : InstallationMethod) : List Str :=
  ((tree.filter (fun f => isNixPath f.path)).map
    (fun f => readBlockEntries f.content (blockNameForMethod method))).flatten

/-- presentInFlake (src/packages.go lines 250-268): the file-wide
already-installed test, with the per-method equivalence rule on each collected
entry. -/
def presentInFlake (pkgName : Str) (tree : List NixFile) (method : InstallationMethod) : Bool :=
  (listInstalledPackages tree method).any fun e =>
    let t := trimSpace e
    match method with
    | .flatpak =>
      containsSub t pkgName || containsSub t ("appId = \"".toList ++ pkgName ++ "\"".toList)
    | _ =>
      t == pkgName || t == "pkgs.".toList ++ pkgName || t == "unstable.".toList ++ pkgName

/-- Go strings.ToLower (ASCII range; the sources only compare ASCII names). -/
def lowerStr (s : Str) : Str := s.map Char.toLower

/-- Confirmation test used before every write:
strings.ToLower(strings.TrimSpace(response)) == "y". -/
def affirmative (resp : Str) : Bool := lowerStr (trimSpace resp) == ['y']

/-- Go strings.Split(s, sep) for a non-empty separator (used with "nixos-"). -/
def splitOnSub (s sep : Str) : List Str :=
  match s, sep with
  | s, [] => [s]
  | [], _ :: _ => [[]]
  | c :: t, sep@(_ :: _) =>
    if sep.isPrefixOf (c :: t) then [] :: splitOnSub (t.drop (sep.length - 1)) sep
    else (splitOnSub t sep).modifyHead (c :: ·)
termination_by s.length
decreasing_by
  · simp only [List.length_drop, List.length_cons]
    omega
  · simp only [List.length_cons]
    omega

/-- getNixpkgsVersion applied to one line (src/installationlocations.go lines
283-295): a trimmed non-comment nixpkgs.url line split on "nixos-" yields the
version up to the next quote. -/
def versionFromLine (line : Str) : Option Str :=
  let l := trimSpace line
  if containsSub l "nixpkgs.url =".toList && !("#".toList.isPrefixOf l) then
    if containsSub l "nixos-".toList then
      let parts := splitOnSub l "nixos-".toList
      if parts.length = 2 then some ((splitOnChar '"' (parts.getD 1 [])).headD [])
      else none
    else none
  else none

/-- getNixpkgsVersion (src/installationlocations.go lines 272-298): the first
line of the flake that yields a version. -/
def getNixpkgsVersion (content : Str) : Option Str :=
  (linesOf content).foldr (fun line acc => (versionFromLine line).orElse (fun _ => acc)) none

/-- Outcome of the SectionEditor operations addInput and addModule
(src/installationlocations.go); notFound models the returned errors for a
missing label or delimiter, the other outcomes return nil. -/
inductive SectionResult where
  | alreadyExists
  | cancelled
  | notFound
  | added
deriving DecidableEq, Repr

/-- The brace-depth loop of addInput (src/installationlocations.go lines
362-374): starting on the opening brace of "inputs = {" with count 0, find the
position whose closing brace returns the count to zero. -/
def braceScan : Str → Int → Option Nat
  | [], _ => none
  | c :: t, d =>
    if c = '{' then (braceScan t (d + 1)).map (· + 1)
    else if c = '}' then
      if d - 1 = 0 then some 0 else (braceScan t (d - 1)).map (· + 1)
    else (braceScan t d).map (· + 1)

/-- addModule (src/installationlocations.go lines 169-217), file IO modelled as
content in / content out, with the interactive response as an argument. -/
def addModule (content modulePath resp : Str) : SectionResult × Str :=
  if containsSub content modulePath then (.alreadyExists, content)
  else if !(affirmative resp) then (.cancelled, content)
  else
    match indexOfSub content "modules = [".toList with
    | none => (.notFound, content)
    | some mi =>
      match indexOfSub (content.drop mi) closeBracketStr with
      | none => (.notFound, content)
      | some rel =>
        let closeIndex := mi + rel
        (.added,
          content.take closeIndex ++ "    ".toList ++ modulePath ++ ['\n'] ++
            content.drop closeIndex)

/-- The finalURL / additionalLines switch of addInput
(src/installationlocations.go lines 315-338). -/
def addInputUrl (content inputName inputURL : Str) : Str × List Str :=
  if inputName = "home-manager".toList then
    let url :=
      match getNixpkgsVersion content with
      | none => "github:nix-community/home-manager/release-24.11".toList
      | some v => "github:nix-community/home-manager/release-".toList ++ v
    (url, ["    ".toList ++ inputName ++ ".inputs.nixpkgs.follows = \"nixpkgs\";".toList])
  else if inputName = "flatpaks".toList || inputName = "flatpak".toList then
    ("github:gmodena/nix-flatpak/?ref=latest".toList, [])
  else (inputURL, [])

/-- addInput (src/installationlocations.go lines 300-402), file IO modelled as
content in / content out, with the interactive response as an argument. -/
def addInput (content inputName inputURL resp : Str) : SectionResult × Str :=
  if containsSub content (inputName ++ ".url".toList) then (.alreadyExists, content)
  else
    let fu := addInputUrl content inputName inputURL
    if !(affirmative resp) then (.cancelled, content)
    else
      match indexOfSub content "inputs = \x7b".toList with
      | none => (.notFound, content)
      | some ii =>
        match braceScan (content.drop (ii + 9)) 0 with
        | none => (.notFound, content)
        | some rel =>
          let closeIndex := ii + 9 + rel
          let spliced :=
            "    ".toList ++ inputName ++ ".url = \"".toList ++ fu.1 ++ "\";\n".toList ++
              (fu.2.map (fun l => l ++ ['\n'])).flatten
          (.added, content.take closeIndex ++ spliced ++ content.drop closeIndex)

/-- PackageInfo (src/packages.go lines 358-362). -/
structure PackageInfo where
  description : Str
  pname : Str
  version : Str
deriving DecidableEq, Repr

/-- One decoded record of the Flathub search response (src/packages.go lines
429-433). -/
structure FlathubApp where
  flatpakAppId : Str
  name : Str
  summary : Str
deriving DecidableEq, Repr

/-- The record constructed from one Flathub app (src/packages.go lines
471-476). -/
def toPackageInfo (a : FlathubApp) : PackageInfo :=
  { description := a.summary, pname := a.flatpakAppId, version := [] }

/-- The pure ranking stage of searchFlathub (src/packages.go lines 439-498)
applied to the decoded app list: the if / else-if / else-if chain sends each
app to at most one of three buckets, buckets are concatenated in order and the
result truncated to 10.  The HTTP fetch and JSON decoding are external. -/
def rankFlathubApps (query : Str) (apps : List FlathubApp) : List PackageInfo :=
  let ql := lowerStr query
  let exact := apps.filter (fun a => lowerStr a.flatpakAppId == ql)
  let startsW := apps.filter (fun a =>
    !(lowerStr a.flatpakAppId == ql) && ql.isPrefixOf (lowerStr a.flatpakAppId))
  let containsW := apps.filter (fun a =>
    !(lowerStr a.flatpakAppId == ql) && !(ql.isPrefixOf (lowerStr a.flatpakAppId)) &&
      containsSub (lowerStr a.flatpakAppId) ql)
  ((exact ++ startsW ++ containsW).map toPackageInfo).take 10

/-- SQLite LIKE with pattern query ++ "%": ASCII case-insensitive starts-with
(modelled for queries without LIKE wildcards). -/
def likeStarts (query s : Str) : Bool := (lowerStr query).isPrefixOf (lowerStr s)

/-- SQLite LIKE with pattern "%" ++ query ++ "%": ASCII case-insensitive
containment (modelled for queries without LIKE wildcards). -/
def likeContains (query s : Str) : Bool := containsSub (lowerStr s) (lowerStr query)

/-- The local-index path of SearchPackages (src/packages.go lines 503-562)
over an in-memory table of rows in storage order: three SQL queries --
pname = query (binary collation, case-sensitive), pname LIKE query+"%", and
pname LIKE "%"+query+"%" AND pname NOT LIKE query+"%" -- concatenated and
truncated to 10.  The sqlite handle and home-directory resolution are
external. -/
def searchLocalDb (query : Str) (table : List PackageInfo) : List PackageInfo :=
  let exact := table.filter (fun r => r.pname == query)
  let startsW := table.filter (fun r => likeStarts query r.pname)
  let containsW := table.filter (fun r =>
    likeContains query r.pname && !(likeStarts query r.pname))
  (exact ++ startsW ++ containsW).take 10

/-- Modelled from the spec: the three-tier ranking contract of search in the
claim's words -- records whose name matches the query exactly
case-insensitively, then records whose name starts with the query but is not
an exact match, then records whose name contains the query but does not start
with it, concatenated and truncated to 10. -/
def specTierSearch (query : Str) (records : List PackageInfo) : List PackageInfo :=
  let q := lowerStr query
  (records.filter (fun r => lowerStr r.pname == q)
    ++ records.filter (fun r => !(lowerStr r.pname == q) && q.isPrefixOf (lowerStr r.pname))
    ++ records.filter (fun r =>
        !(q.isPrefixOf (lowerStr r.pname)) && containsSub (lowerStr r.pname) q)).take 10

/-- Modelled from the spec, amended per the code: the local-index tiering as
implemented -- case-sensitive exact matches, then case-insensitive starts-with
matches (the exact matches included again), then case-insensitive
contains-but-not-starts-with matches, concatenated and truncated to 10. -/
def specTierSearchLoose (query : Str) (records : List PackageInfo) : List PackageInfo :=
  (records.filter (fun r => r.pname == query)
    ++ records.filter (fun r => (lowerStr query).isPrefixOf (lowerStr r.pname))
    ++ records.filter (fun r =>
        containsSub (lowerStr r.pname) (lowerStr query)
          && !((lowerStr query).isPrefixOf (lowerStr r.pname)))).take 10

/-- The environment of one installPackage run: the outcomes of the external
collaborators it consults (local package database, Flathub resolution,
interactive prompts) and, for the bootstrap branch, the re-listed tree after
the method's boilerplate file has been created (makeHomeEnv / makeNixEnv /
setupFlatpak resolve paths through the user's home directory outside this
model). -/
structure InstallEnv where
  dbHasPkg : Bool
  flatpakResolved : Option Str
  flakePath : Str
  unstableResp : Str
  inputResp : Str
  confirmResp : Str
  bootstrapped : List NixFile
deriving Repr

/-- The outcome reported by installPackage (src/packages.go lines 51-210),
one constructor per printed terminal message. -/
inductive InstallResult where
  | notFoundInNixpkgs
  | flatpakNotFound
  | alreadyInstalled (resolved : Str)
  | unstableSetupError
  | cancelled
  | installed
  | noNixFiles
  | noBlockFound
deriving DecidableEq, Repr

/-- The name resolution step of installPackage: Flatpak installs replace the
requested name by the app id resolved through isFlatpakAvailable, other
methods keep the name (validated against the local database). -/
def resolveName (pkgName : Str) (method : InstallationMethod) (env : InstallEnv) : Option Str :=
  match method with
  | .flatpak => env.flatpakResolved
  | _ => some pkgName

/-- Content of a file of the tree (os.ReadFile; none models a read error). -/
def lookupFile (tree : List NixFile) (p : Str) : Option Str :=
  (tree.find? (fun f => f.path == p)).map NixFile.content

/-- Whole-file rewrite of one file of the tree (os.WriteFile). -/
def updateFile (tree : List NixFile) (p newContent : Str) : List NixFile :=
  tree.map (fun f => if f.path == p then { path := f.path, content := newContent } else f)

/-- inputExistsInFlake (src/packages.go lines 19-25): a read error counts as
absent. -/
def inputExistsInFlake (tree : List NixFile) (flakePath inputName : Str) : Bool :=
  match lookupFile tree flakePath with
  | none => false
  | some c => containsSub c (inputName ++ ".url".toList)

/-- ensureUnstableInput (src/packages.go lines 28-48): none models the error
return (addInput failed); a declined prompt proceeds with a warning. -/
def ensureUnstableInput (tree : List NixFile) (env : InstallEnv) : Option (List NixFile) :=
  if inputExistsInFlake tree env.flakePath "unstable".toList then some tree
  else if !(affirmative env.unstableResp) then some tree
  else
    match lookupFile tree env.flakePath with
    | none => none
    | some c =>
      match addInput c "unstable".toList "github:NixOS/nixpkgs/nixos-unstable".toList
          env.inputResp with
      | (.notFound, _) => none
      | (_, c') => some (updateFile tree env.flakePath c')

/-- installPackage (src/packages.go lines 51-210): existence check, Flathub
resolution, file-wide already-installed check, optional unstable-input setup,
confirmation, bootstrap when no file carries the block, then one
insertIntoNixBlock per .nix file. -/
def installPackage (pkgName : Str) (tree : List NixFile) (method : InstallationMethod)
    (unstable : Bool) (env : InstallEnv) : InstallResult × List NixFile :=
  if method ≠ .flatpak && !env.dbHasPkg then (.notFoundInNixpkgs, tree)
  else
    match resolveName pkgName method env with
    | none => (.flatpakNotFound, tree)
    | some pkg =>
      if presentInFlake pkg tree method then (.alreadyInstalled pkg, tree)
      else
        match (if unstable && method ≠ .flatpak then ensureUnstableInput tree env
               else some tree) with
        | none => (.unstableSetupError, tree)
        | some tree1 =>
          if !(affirmative env.confirmResp) then (.cancelled, tree1)
          else
            let block := blockNameForMethod method
            let hasBlock := tree1.any (fun f => isNixPath f.path && containsSub f.content block)
            let files := if hasBlock then tree1 else env.bootstrapped
            let entry := buildEntry pkg method unstable
            let outcomes := (files.filter (fun f => isNixPath f.path)).map
              (fun f => (insertIntoNixBlock f.content block entry method).1)
            let tree2 := files.map (fun f =>
              if isNixPath f.path then
                { path := f.path, content := (insertIntoNixBlock f.content block entry method).2 }
              else f)
            if outcomes.any (· == .added) then (.installed, tree2)
            else if outcomes.length = 0 then (.noNixFiles, tree2)
            else (.noBlockFound, tree2)

/-! Support lemmas about the string primitives. -/

theorem splitOnChar_ne_nil (ch : Char) (s : Str) : splitOnChar ch s ≠ [] := by
  induction s with
  | nil => simp [splitOnChar]
  | cons c t ih =>
    simp only [splitOnChar]
    split
    · simp
    · cases h : splitOnChar ch t with
      | nil => simp
      | cons l ls => simp

theorem mem_splitOnChar_not_mem {ch : Char} {s : Str} :
    ∀ l ∈ splitOnChar ch s, ch ∉ l := by
  induction s with
  | nil => simp [splitOnChar]
  | cons c t ih =>
    intro l hl
    simp only [splitOnChar] at hl
    split at hl
    · rcases List.mem_cons.1 hl with rfl | hl
      · simp
      · exact ih l hl
    · rename_i hc
      cases h : splitOnChar ch t with
      | nil => exact absurd h (splitOnChar_ne_nil ch t)
      | cons x xs =>
        rw [h] at hl
        rcases List.mem_cons.1 hl with rfl | hl
        · intro hmem
          rcases List.mem_cons.1 hmem with rfl | hmem
          · exact hc rfl
          · exact ih x (h ▸ List.mem_cons_self x xs) hmem
        · exact ih l (h ▸ List.mem_cons_of_mem x hl)

theorem mem_of_mem_splitOnChar {ch : Char} {s : Str} {l : Str} {x : Char}
    (hl : l ∈ splitOnChar ch s) (hx : x ∈ l) : x ∈ s := by
  induction s generalizing l with
  | nil =>
    simp [splitOnChar] at hl
    subst hl
    simp at hx
  | cons c t ih =>
    simp only [splitOnChar] at hl
    split at hl
    · rcases List.mem_cons.1 hl with rfl | hl
      · simp at hx
      · exact List.mem_cons_of_mem c (ih hl hx)
    · cases h : splitOnChar ch t with
      | nil => exact absurd h (splitOnChar_ne_nil ch t)
      | cons y ys =>
        rw [h] at hl
        rcases List.mem_cons.1 hl with rfl | hl
        · rcases List.mem_cons.1 hx with rfl | hx
          · exact List.mem_cons_self x t
          · exact List.mem_cons_of_mem c (ih (h ▸ List.mem_cons_self y ys) hx)
        · exact List.mem_cons_of_mem c (ih (h ▸ List.mem_cons_of_mem y hl) hx)

theorem joinWith_splitOnChar (ch : Char) (s : Str) :
    joinWith ch (splitOnChar ch s) = s := by
  induction s with
  | nil => simp [splitOnChar, joinWith]
  | cons c t ih =>
    simp only [splitOnChar]
    split
    · rename_i hc
      subst hc
      cases h : splitOnChar c t with
      | nil => exact absurd h (splitOnChar_ne_nil c t)
      | cons l ls =>
        rw [h] at ih
        simpa [joinWith] using ih
    · cases h : splitOnChar ch t with
      | nil => exact absurd h (splitOnChar_ne_nil ch t)
      | cons l ls =>
        rw [h] at ih
        cases ls with
        | nil => simpa [joinWith] using congrArg (c :: ·) ih
        | cons l' ls' => simpa [joinWith] using congrArg (c :: ·) ih

theorem splitOnChar_not_mem {ch : Char} {l : Str} (h : ch ∉ l) :
    splitOnChar ch l = [l] := by
  induction l with
  | nil => simp [splitOnChar]
  | cons c t ih =>
    have hc : ¬ c = ch := fun hc => h (hc ▸ List.mem_cons_self c t)
    have ht : ch ∉ t := fun hm => h (List.mem_cons_of_mem c hm)
    simp only [splitOnChar, if_neg hc, ih ht]

theorem splitOnChar_append_cons {ch : Char} {l : Str} (r : Str) (h : ch ∉ l) :
    splitOnChar ch (l ++ ch :: r) = l :: splitOnChar ch r := by
  induction l with
  | nil => simp [splitOnChar]
  | cons c t ih =>
    have hc : ¬ c = ch := fun hc => h (hc ▸ List.mem_cons_self c t)
    have ht : ch ∉ t := fun hm => h (List.mem_cons_of_mem c hm)
    simp only [List.cons_append, splitOnChar, List.append_eq, if_neg hc, ih ht]

theorem splitOnChar_joinWith (ch : Char) (L : List Str) (hne : L ≠ [])
    (h : ∀ l ∈ L, ch ∉ l) : splitOnChar ch (joinWith ch L) = L := by
  induction L with
  | nil => exact absurd rfl hne
  | cons l ls ih =>
    cases ls with
    | nil =>
      simp only [joinWith]
      exact splitOnChar_not_mem (h l (List.mem_cons_self l []))
    | cons l' ls' =>
      simp only [joinWith]
      rw [splitOnChar_append_cons _ (h l (List.mem_cons_self l _))]
      rw [ih (by simp) (fun x hx => h x (List.mem_cons_of_mem l hx))]

theorem joinWith_append (ch : Char) (A B : List Str) (hA : A ≠ []) (hB : B ≠ []) :
    joinWith ch (A ++ B) = joinWith ch A ++ ch :: joinWith ch B := by
  induction A with
  | nil => exact absurd rfl hA
  | cons a as ih =>
    cases as with
    | nil =>
      cases B with
      | nil => exact absurd rfl hB
      | cons b bs => simp [joinWith]
    | cons a' as' =>
      have h2 := ih (by simp)
      simp only [List.cons_append] at h2 ⊢
      simp only [joinWith, List.append_eq]
      rw [h2]
      simp

/-! Support lemmas about findFirst. -/

theorem findFirst_cons_of_neg {p : α → Bool} {a : α} {l : List α} (h : p a = false) :
    findFirst p (a :: l) = (findFirst p l).map (· + 1) := by
  simp [findFirst, h]

theorem findFirst_cons_of_pos {p : α → Bool} {a : α} {l : List α} (h : p a = true) :
    findFirst p (a :: l) = some 0 := by
  simp [findFirst, h]

theorem findFirst_eq_none_iff {p : α → Bool} {L : List α} :
    findFirst p L = none ↔ ∀ a ∈ L, p a = false := by
  induction L with
  | nil => simp [findFirst]
  | cons a l ih =>
    cases hp : p a with
    | true =>
      rw [findFirst_cons_of_pos hp]
      constructor
      · intro h
        simp at h
      · intro h
        exact absurd (h a (List.mem_cons_self a l)) (by simp [hp])
    | false =>
      rw [findFirst_cons_of_neg hp]
      simp only [Option.map_eq_none', ih, List.mem_cons]
      constructor
      · intro h x hx
        rcases hx with rfl | hx
        · exact hp
        · exact h x hx
      · intro h x hx
        exact h x (Or.inr hx)

theorem findFirst_eq_some_decomp {p : α → Bool} {L : List α} {i : Nat}
    (h : findFirst p L = some i) :
    ∃ pre a suf, L = pre ++ a :: suf ∧ pre.length = i ∧
      (∀ b ∈ pre, p b = false) ∧ p a = true := by
  induction L generalizing i with
  | nil => simp [findFirst] at h
  | cons a l ih =>
    cases hp : p a with
    | true =>
      rw [findFirst_cons_of_pos hp] at h
      cases h
      exact ⟨[], a, l, by simp, rfl, by simp, hp⟩
    | false =>
      rw [findFirst_cons_of_neg hp] at h
      rcases Option.map_eq_some'.1 h with ⟨j, hj, rfl⟩
      rcases ih hj with ⟨pre, b, suf, hL, hlen, hpre, hb⟩
      refine ⟨a :: pre, b, suf, by simp [hL], by simp [hlen], ?_, hb⟩
      intro x hx
      rcases List.mem_cons.1 hx with rfl | hx
      · exact hp
      · exact hpre x hx

theorem findFirst_of_decomp {p : α → Bool} (pre : List α) (a : α) (suf : List α)
    (hpre : ∀ b ∈ pre, p b = false) (ha : p a = true) :
    findFirst p (pre ++ a :: suf) = some pre.length := by
  induction pre with
  | nil => simp [findFirst, ha]
  | cons b bs ih =>
    have hb : p b = false := hpre b (List.mem_cons_self b bs)
    have := ih (fun x hx => hpre x (List.mem_cons_of_mem b hx))
    simp only [List.cons_append, findFirst_cons_of_neg hb, this, Option.map_some']
    simp

theorem findFirst_append_left {p : α → Bool} {A : List α} (B : List α) {i : Nat}
    (h : findFirst p A = some i) : findFirst p (A ++ B) = some i := by
  rcases findFirst_eq_some_decomp h with ⟨pre, a, suf, rfl, rfl, hpre, ha⟩
  rw [List.append_assoc, List.cons_append]
  exact findFirst_of_decomp pre a (suf ++ B) hpre ha

/-! Support lemmas about containsSub, trimSpace, dropCR. -/

theorem containsSub_eq_true_iff {l sub : Str} : containsSub l sub = true ↔ sub <:+: l := by
  induction l with
  | nil => simp [containsSub, List.isEmpty_iff]
  | cons c t ih =>
    simp only [containsSub, Bool.or_eq_true, List.isPrefixOf_iff_prefix, ih,
      List.infix_cons_iff]

theorem containsSub_singleton_iff_mem {l : Str} {ch : Char} :
    containsSub l [ch] = true ↔ ch ∈ l := by
  rw [containsSub_eq_true_iff]
  constructor
  · intro h
    exact h.sublist.subset (List.mem_cons_self ch [])
  · intro h
    rcases List.append_of_mem h with ⟨s, t, rfl⟩
    exact ⟨s, t, by simp⟩

theorem containsSub_of_suffix {l sub : Str} (h : sub <:+ l) : containsSub l sub = true :=
  containsSub_eq_true_iff.2 h.isInfix

theorem trimSpace_all_space_append {pre s : Str} (h : ∀ c ∈ pre, isGoSpace c = true) :
    trimSpace (pre ++ s) = trimSpace s := by
  unfold trimSpace
  rw [List.dropWhile_append]
  have : (pre.dropWhile isGoSpace) = [] := List.dropWhile_eq_nil_iff.2 (fun c hc => h c hc)
  simp [this]

theorem trimSpace_spaces4_append (s : Str) : trimSpace (spaces4 ++ s) = trimSpace s := by
  apply trimSpace_all_space_append
  decide

theorem dropCR_of_not_mem {l : Str} (h : '\r' ∉ l) : dropCR l = l := by
  unfold dropCR
  split
  · rename_i hl
    exact absurd (List.mem_of_mem_getLast? (Option.mem_def.2 hl)) h
  · rfl

theorem map_dropCR_of_no_cr {L : List Str} (h : ∀ l ∈ L, '\r' ∉ l) :
    L.map dropCR = L := by
  have heq : L.map dropCR = L.map id :=
    List.map_congr_left (fun l hl => dropCR_of_not_mem (h l hl))
  simpa using heq

theorem takeWhile_append_stop {l r : Str} {ch : Char} (h : ch ∉ l) :
    (l ++ ch :: r).takeWhile (· ≠ ch) = l := by
  induction l with
  | nil => simp [List.takeWhile_cons]
  | cons c t ih =>
    have hc : c ≠ ch := fun hc => h (hc ▸ List.mem_cons_self c t)
    have ht : ch ∉ t := fun hm => h (List.mem_cons_of_mem c hm)
    simp only [List.cons_append, List.takeWhile_cons]
    simp only [decide_eq_true_eq] at *
    simp [hc]
    simpa using ih ht

theorem takeWhile_eq_self_of_not_mem {l : Str} {ch : Char} (h : ch ∉ l) :
    l.takeWhile (· ≠ ch) = l := by
  induction l with
  | nil => rfl
  | cons c t ih =>
    have hc : c ≠ ch := fun hc => h (hc ▸ List.mem_cons_self c t)
    have ht : ch ∉ t := fun hm => h (List.mem_cons_of_mem c hm)
    simp only [List.takeWhile_cons]
    simp [hc]
    simpa using ih ht

/-! Support lemmas about scanLines, readLoop and blockScan. -/

/-- The trailing-empty-token adjustment inside scanLines: the line list with a
final empty line removed if present. -/
def dropTrailingBlank (L : List Str) : List Str :=
  if L.getLast? = some [] then L.dropLast else L

theorem scanLines_eq (content : Str) :
    scanLines content = (dropTrailingBlank (linesOf content)).map dropCR := rfl

theorem dropTrailingBlank_append {A B : List Str} (hB : B ≠ []) :
    dropTrailingBlank (A ++ B) = A ++ dropTrailingBlank B := by
  unfold dropTrailingBlank
  cases hg : B.getLast? with
  | none => exact absurd (List.getLast?_eq_none_iff.1 hg) hB
  | some b =>
    rw [List.getLast?_append, hg]
    simp only [Option.or_some]
    by_cases hb : b = []
    · subst hb
      rw [if_pos rfl, if_pos rfl, List.dropLast_append_of_ne_nil A hB]
    · rw [if_neg (by simpa using hb), if_neg (by simpa using hb)]

theorem exists_dropTrailingBlank_cons {lc : Str} (R : List Str) (hlc : lc ≠ []) :
    ∃ T, dropTrailingBlank (lc :: R) = lc :: T := by
  cases R with
  | nil =>
    refine ⟨[], ?_⟩
    unfold dropTrailingBlank
    rw [if_neg (by simpa using hlc)]
  | cons r rs =>
    refine ⟨dropTrailingBlank (r :: rs), ?_⟩
    have : lc :: r :: rs = [lc] ++ r :: rs := rfl
    rw [this, dropTrailingBlank_append (by simp), List.singleton_append]

theorem mem_of_mem_dropTrailingBlank {L : List Str} {l : Str}
    (h : l ∈ dropTrailingBlank L) : l ∈ L := by
  unfold dropTrailingBlank at h
  split at h
  · exact (List.dropLast_sublist L).subset h
  · exact h

theorem readLoop_append_skip {bn : Str} {A : List Str} (B : List Str)
    (h : ∀ l ∈ A, containsSub l bn = false) :
    readLoop bn (A ++ B) false = readLoop bn B false := by
  induction A with
  | nil => rfl
  | cons a as ih =>
    have ha := h a (List.mem_cons_self a as)
    simp only [List.cons_append, readLoop, ha]
    exact ih (fun l hl => h l (List.mem_cons_of_mem a hl))

theorem readLoop_append_mid {bn : Str} {A : List Str} (B : List Str)
    (h : ∀ l ∈ A, containsSub l closeBracketStr = false) :
    readLoop bn (A ++ B) true
      = (A.map midLineEntries).flatten ++ readLoop bn B true := by
  induction A with
  | nil => rfl
  | cons a as ih =>
    have ha := h a (List.mem_cons_self a as)
    have step : readLoop bn (a :: (as ++ B)) true
        = midLineEntries a ++ readLoop bn (as ++ B) true := by
      simp [readLoop, ha]
    rw [List.cons_append, step, ih (fun l hl => h l (List.mem_cons_of_mem a hl))]
    simp [List.append_assoc]

theorem readLoop_close {bn lc : Str} (R : List Str)
    (h : containsSub lc closeBracketStr = true) :
    readLoop bn (lc :: R) true = closeLineEntries lc := by
  simp [readLoop, h]

theorem readLoop_openLine {bn lb : Str} (T : List Str)
    (hb : containsSub lb bn = true) (ho : containsSub lb openBracketStr = true) :
    readLoop bn (lb :: T) false = openLineEntries lb ++ readLoop bn T true := by
  simp [readLoop, hb, ho]

theorem readLoop_skip_one {bn x : Str} (T : List Str) (h : containsSub x bn = false) :
    readLoop bn (x :: T) false = readLoop bn T false := by
  simp [readLoop, h]

theorem readLoop_run (bn : Str) (pre : List Str) (lb : Str) (I : List Str) (lc : Str)
    (T : List Str)
    (hpre : ∀ l ∈ pre, containsSub l bn = false)
    (hlb : containsSub lb bn = true) (hlbo : containsSub lb openBracketStr = true)
    (hI : ∀ l ∈ I, containsSub l closeBracketStr = false)
    (hlc : containsSub lc closeBracketStr = true) :
    readLoop bn (pre ++ lb :: (I ++ lc :: T)) false
      = openLineEntries lb ++ (I.map midLineEntries).flatten ++ closeLineEntries lc := by
  rw [readLoop_append_skip _ hpre, readLoop_openLine _ hlb hlbo,
    readLoop_append_mid _ hI, readLoop_close _ hlc]
  simp [List.append_assoc]

theorem blockScan_some {lines : List Str} {bn : Str} {b o c : Nat}
    (h : blockScan lines bn = some (b, o, c)) :
    findFirst (fun l => containsSub l bn) lines = some b ∧
    findFirst (fun l => containsSub l openBracketStr) (lines.drop b) = some (o - b) ∧
    findFirst (fun l => containsSub l closeBracketStr) (lines.drop o) = some (c - o) ∧
    b ≤ o ∧ o ≤ c := by
  unfold blockScan at h
  split at h
  · cases h
  · rename_i b' h1
    split at h
    · cases h
    · rename_i ob h2
      split at h
      · cases h
      · rename_i cb h3
        simp only [Option.some_inj, Prod.mk.injEq] at h
        obtain ⟨rfl, rfl, rfl⟩ := h
        refine ⟨h1, ?_, ?_, by omega, by omega⟩
        · simpa using h2
        · simpa using h3

theorem blockScan_construct {lines : List Str} {bn : Str} {b ob cb : Nat}
    (h1 : findFirst (fun l => containsSub l bn) lines = some b)
    (h2 : findFirst (fun l => containsSub l openBracketStr) (lines.drop b) = some ob)
    (h3 : findFirst (fun l => containsSub l closeBracketStr) (lines.drop (b + ob)) = some cb) :
    blockScan lines bn = some (b, b + ob, b + ob + cb) := by
  simp only [blockScan, h1, h2, h3]

theorem blockScan_none {lines : List Str} {bn : Str}
    (h : blockScan lines bn = none) (entry : Str) (m : InstallationMethod) (content : Str)
    (hl : lines = linesOf content) :
    insertIntoNixBlock content bn entry m = (.error, content) := by
  subst hl
  simp only [insertIntoNixBlock, h]

theorem insertIntoNixBlock_of_scan {content bn entry : Str} {m : InstallationMethod}
    {b o c : Nat} (hscan : blockScan (linesOf content) bn = some (b, o, c)) :
    insertIntoNixBlock content bn entry m =
      (if (((linesOf content).drop (o + 1)).take (c - (o + 1))).any (presenceLine m entry) then
        (.alreadyPresent, content)
      else
        (.added, joinWith '\n'
          ((linesOf content).take c ++ [spaces4 ++ entry] ++ (linesOf content).drop c))) := by
  simp only [insertIntoNixBlock, hscan]

theorem take_drop_of_drop_decomp {α : Type} {L : List α} {o : Nat} {pre : List α} {a : α}
    {suf : List α} (hd : L.drop o = pre ++ a :: suf) :
    L.take (o + pre.length) = L.take o ++ pre ∧ L.drop (o + pre.length) = a :: suf := by
  have ho : o ≤ L.length := by
    by_contra hlt
    push_neg at hlt
    rw [List.drop_of_length_le (Nat.le_of_lt hlt)] at hd
    exact absurd hd.symm (by simp)
  have hwhole : (L.take o ++ pre) ++ a :: suf = L := by
    rw [List.append_assoc, ← hd, List.take_append_drop]
  have hlen : (L.take o ++ pre).length = o + pre.length := by
    rw [List.length_append, List.length_take]
    omega
  constructor
  · conv_lhs => rw [← hwhole]
    exact List.take_left' hlen
  · conv_lhs => rw [← hwhole]
    exact List.drop_left' hlen

theorem drop_insert_split {α : Type} {L : List α} {c k : Nat} (x : α) (hk : k ≤ c)
    (hc : c ≤ L.length) :
    (L.take c ++ [x] ++ L.drop c).drop k = (L.drop k).take (c - k) ++ [x] ++ L.drop c := by
  rw [List.append_assoc, List.drop_append_eq_append_drop, List.drop_take]
  have h1 : (L.take c).length = c := by
    rw [List.length_take]
    omega
  rw [h1, Nat.sub_eq_zero_of_le hk, List.drop_zero, ← List.append_assoc]

theorem take_of_decomp_lt {α : Type} {M pre : List α} {a : α} {suf : List α} {n : Nat}
    (hM : M = pre ++ a :: suf) (hn : pre.length < n) :
    M.take n = pre ++ a :: suf.take (n - pre.length - 1) := by
  subst hM
  rw [List.take_append_eq_append_take, List.take_of_length_le (Nat.le_of_lt hn)]
  congr 1
  have h2 : n - pre.length = (n - pre.length - 1) + 1 := by omega
  conv_lhs => rw [h2]
  rw [List.take_succ_cons]

theorem blockScan_insert_shift {L : List Str} {bn x : Str} {b o c : Nat}
    (hb : findFirst (fun l => containsSub l bn) L = some b)
    (ho : findFirst (fun l => containsSub l openBracketStr) (L.drop b) = some (o - b))
    (hc : findFirst (fun l => containsSub l closeBracketStr) (L.drop o) = some (c - o))
    (hbo : b ≤ o) (hoc : o < c)
    (hxcb : containsSub x closeBracketStr = false) :
    blockScan (L.take c ++ [x] ++ L.drop c) bn = some (b, o, c + 1) := by
  obtain ⟨pre3, lc, suf3, hdeq3, hlen3, hpre3, hlc⟩ := findFirst_eq_some_decomp hc
  obtain ⟨preb, lb, sufb, hdeqb, hlenb, hpreb, hlb⟩ := findFirst_eq_some_decomp hb
  obtain ⟨preo, lo, sufo, hdeqo, hleno, hpreo, hlo⟩ := findFirst_eq_some_decomp ho
  have hlen3' : pre3.length = c - o := by omega
  have hdropc : L.drop c = lc :: suf3 := by
    have h2 := (take_drop_of_drop_decomp hdeq3).2
    rwa [hlen3', show o + (c - o) = c from by omega] at h2
  have hclen : c < L.length := by
    have h3 := congrArg List.length hdropc
    rw [List.length_drop, List.length_cons] at h3
    omega
  have hb1 : findFirst (fun l => containsSub l bn) (L.take c ++ [x] ++ L.drop c) = some b := by
    have htakec : L.take c = preb ++ lb :: sufb.take (c - preb.length - 1) :=
      take_of_decomp_lt hdeqb (by omega)
    rw [hlenb] at htakec
    rw [htakec]
    have hsh : (preb ++ lb :: sufb.take (c - b - 1)) ++ [x] ++ L.drop c
        = preb ++ lb :: (sufb.take (c - b - 1) ++ ([x] ++ L.drop c)) := by
      simp [List.append_assoc]
    rw [hsh]
    have h4 := findFirst_of_decomp preb lb
      (sufb.take (c - b - 1) ++ ([x] ++ L.drop c)) hpreb hlb
    rwa [hlenb] at h4
  have ho1 : findFirst (fun l => containsSub l openBracketStr)
      ((L.take c ++ [x] ++ L.drop c).drop b) = some (o - b) := by
    have hsplit := drop_insert_split x (Nat.le_of_lt (by omega : b < c))
      (Nat.le_of_lt hclen)
    rw [hsplit]
    have htk : (L.drop b).take (c - b)
        = preo ++ lo :: sufo.take (c - b - preo.length - 1) :=
      take_of_decomp_lt hdeqo (by omega)
    rw [hleno] at htk
    rw [htk]
    have hsh : (preo ++ lo :: sufo.take (c - b - (o - b) - 1)) ++ [x] ++ L.drop c
        = preo ++ lo :: (sufo.take (c - b - (o - b) - 1) ++ ([x] ++ L.drop c)) := by
      simp [List.append_assoc]
    rw [hsh]
    have h5 := findFirst_of_decomp preo lo
      (sufo.take (c - b - (o - b) - 1) ++ ([x] ++ L.drop c)) hpreo hlo
    rwa [hleno] at h5
  have hc1 : findFirst (fun l => containsSub l closeBracketStr)
      ((L.take c ++ [x] ++ L.drop c).drop o) = some (c - o + 1) := by
    have hsplit := drop_insert_split x (Nat.le_of_lt hoc) (Nat.le_of_lt hclen)
    rw [hsplit]
    have htk : (L.drop o).take (c - o) = pre3 := by
      rw [hdeq3]
      exact List.take_left' hlen3'
    rw [htk, hdropc]
    have hall : ∀ l ∈ pre3 ++ [x], containsSub l closeBracketStr = false := by
      intro l hl
      rcases List.mem_append.1 hl with hl | hl
      · exact hpre3 l hl
      · rw [List.mem_singleton] at hl
        subst hl
        exact hxcb
    have h6 := findFirst_of_decomp (pre3 ++ [x]) lc suf3 hall hlc
    rwa [List.length_append, hlen3', List.length_singleton] at h6
  have hob : b + (o - b) = o := by omega
  have hc1' : findFirst (fun l => containsSub l closeBracketStr)
      ((L.take c ++ [x] ++ L.drop c).drop (b + (o - b))) = some (c - o + 1) := by
    rw [hob]
    exact hc1
  have h7 := blockScan_construct hb1 ho1 hc1'
  rwa [hob, show o + (c - o + 1) = c + 1 from by omega] at h7

theorem scanned_insert_shift {L : List Str} (x : Str) {o c : Nat} (hoc : o < c)
    (hclen : c < L.length) :
    ((L.take c ++ [x] ++ L.drop c).drop (o + 1)).take (c + 1 - (o + 1))
      = (L.drop (o + 1)).take (c - (o + 1)) ++ [x] := by
  have hsplit := drop_insert_split x (by omega : o + 1 ≤ c) (Nat.le_of_lt hclen)
  rw [hsplit]
  have hlenA : ((L.drop (o + 1)).take (c - (o + 1))).length = c - o - 1 := by
    rw [List.length_take, List.length_drop]
    omega
  rw [List.append_assoc, List.take_append_eq_append_take,
    List.take_of_length_le (by omega : ((L.drop (o + 1)).take (c - (o + 1))).length ≤ c + 1 - (o + 1)),
    hlenA, show c + 1 - (o + 1) - (c - o - 1) = 1 from by omega]
  simp

/-! Claim theorems. -/

/-- C6: for every file content, whether the block label occurs on no line, or
the label occurs but no line at or after it contains an opening bracket, or an
opening bracket is found but no line at or after it contains a closing
bracket, insertIntoNixBlock returns the same InsertError status and leaves the
content unwritten in all three cases. -/
theorem insertIntoNixBlock_uniform_notFound (content bn entry : Str) (m : InstallationMethod) :
    (findFirst (fun l => containsSub l bn) (linesOf content) = none →
      insertIntoNixBlock content bn entry m = (.error, content))
    ∧ (∀ b, findFirst (fun l => containsSub l bn) (linesOf content) = some b →
        findFirst (fun l => containsSub l openBracketStr) ((linesOf content).drop b) = none →
        insertIntoNixBlock content bn entry m = (.error, content))
    ∧ (∀ b ob, findFirst (fun l => containsSub l bn) (linesOf content) = some b →
        findFirst (fun l => containsSub l openBracketStr) ((linesOf content).drop b) = some ob →
        findFirst (fun l => containsSub l closeBracketStr)
          ((linesOf content).drop (b + ob)) = none →
        insertIntoNixBlock content bn entry m = (.error, content)) := by
  refine ⟨?_, ?_, ?_⟩
  · intro h1
    exact blockScan_none (by simp only [blockScan, h1]) entry m content rfl
  · intro b h1 h2
    exact blockScan_none (by simp only [blockScan, h1, h2]) entry m content rfl
  · intro b ob h1 h2 h3
    exact blockScan_none (by simp only [blockScan, h1, h2, h3]) entry m content rfl

/-- Witness for C6: the three structural failures on concrete files all return
InsertError with the content unchanged. -/
theorem insertIntoNixBlock_uniform_notFound_witness :
    insertIntoNixBlock "nothing here".toList "home.packages".toList "pkgs.vim".toList
        .homeManager
      = (.error, "nothing here".toList)
    ∧ insertIntoNixBlock "home.packages = x;".toList "home.packages".toList "pkgs.vim".toList
        .homeManager
      = (.error, "home.packages = x;".toList)
    ∧ insertIntoNixBlock "home.packages = [\n  pkgs.vim".toList "home.packages".toList
        "pkgs.vim".toList .homeManager
      = (.error, "home.packages = [\n  pkgs.vim".toList) :=
  ⟨(insertIntoNixBlock_uniform_notFound "nothing here".toList "home.packages".toList
      "pkgs.vim".toList .homeManager).1 (by decide),
   (insertIntoNixBlock_uniform_notFound "home.packages = x;".toList "home.packages".toList
      "pkgs.vim".toList .homeManager).2.1 0 (by decide) (by decide),
   (insertIntoNixBlock_uniform_notFound "home.packages = [\n  pkgs.vim".toList
      "home.packages".toList "pkgs.vim".toList .homeManager).2.2 0 0 (by decide) (by decide)
      (by decide)⟩

/-- C8: buildEntry never prefixes twice: for the profile/system methods it is
idempotent on its own output (same method, same unstable flag), it leaves
already-prefixed names untouched, and for the sandboxed-app method it always
produces the structured appId/origin literal. -/
theorem buildEntry_no_double_prefixing (p : Str) (u : Bool) (m : InstallationMethod)
    (hm : m = .homeManager ∨ m = .nixEnv) :
    buildEntry (buildEntry p m u) m u = buildEntry p m u
    ∧ (u = false →
        ("pkgs.".toList.isPrefixOf p = true ∨ "unstable.".toList.isPrefixOf p = true) →
        buildEntry p m false = p)
    ∧ (u = true → "unstable.".toList.isPrefixOf p = true → buildEntry p m true = p)
    ∧ buildEntry p .flatpak u
        = "\x7b appId = \"".toList ++ p ++ "\"; origin = \"flathub\"; \x7d".toList := by
  have hpref : ∀ pre q : Str, pre.isPrefixOf (pre ++ q) = true :=
    fun pre q => List.isPrefixOf_iff_prefix.2 (List.prefix_append pre q)
  have etrue : ∀ x : Str, buildEntry x m true =
      if "unstable.".toList.isPrefixOf x then x else "unstable.".toList ++ x := by
    intro x
    rcases hm with rfl | rfl <;> rfl
  have efalse : ∀ x : Str, buildEntry x m false =
      if "pkgs.".toList.isPrefixOf x || "unstable.".toList.isPrefixOf x then x
      else "pkgs.".toList ++ x := by
    intro x
    rcases hm with rfl | rfl <;> rfl
  refine ⟨?_, ?_, ?_, rfl⟩
  · cases u with
    | true =>
      by_cases hx : "unstable.".toList.isPrefixOf p = true
      · have hfix : buildEntry p m true = p := by rw [etrue, if_pos hx]
        rw [hfix]
        exact hfix
      · have hout : buildEntry p m true = "unstable.".toList ++ p := by
          rw [etrue, if_neg hx]
        rw [hout, etrue, if_pos (hpref "unstable.".toList p)]
    | false =>
      by_cases hx : ("pkgs.".toList.isPrefixOf p || "unstable.".toList.isPrefixOf p) = true
      · have hfix : buildEntry p m false = p := by rw [efalse, if_pos hx]
        rw [hfix]
        exact hfix
      · have hout : buildEntry p m false = "pkgs.".toList ++ p := by
          rw [efalse, if_neg hx]
        rw [hout, efalse, if_pos (by rw [hpref "pkgs.".toList p]; rfl)]
  · intro hu hp
    subst hu
    rw [efalse, if_pos (by rcases hp with hp | hp <;> rw [hp] <;> simp)]
  · intro hu hp
    subst hu
    rw [etrue, if_pos hp]

/-- Witness for C8 at the profile method on the name firefox with and without
prefixes. -/
theorem buildEntry_no_double_prefixing_witness :
    buildEntry (buildEntry "firefox".toList .homeManager false) .homeManager false
      = buildEntry "firefox".toList .homeManager false
    ∧ buildEntry "pkgs.firefox".toList .homeManager false = "pkgs.firefox".toList
    ∧ buildEntry "unstable.firefox".toList .homeManager true = "unstable.firefox".toList :=
  ⟨(buildEntry_no_double_prefixing "firefox".toList false .homeManager (Or.inl rfl)).1,
   (buildEntry_no_double_prefixing "pkgs.firefox".toList false .homeManager (Or.inl rfl)).2.1
      rfl (Or.inl (by decide)),
   (buildEntry_no_double_prefixing "unstable.firefox".toList true .homeManager (Or.inl rfl)).2.2.1
      rfl (by decide)⟩

/-- C9: the sandboxed-app presence test is substring-based: a concrete block
that holds only the org.gnome.Calculator entry, whose appId field therefore
never equals org.gnome.Calc, still reports AlreadyPresent for a new
org.gnome.Calc entry because the existing line contains that appId as a
substring. -/
theorem flatpak_presence_substring_false_positive :
    insertIntoNixBlock
        "services.flatpak.packages = [\n  \x7b appId = \"org.gnome.Calculator\"; origin = \"flathub\"; \x7d\n];".toList
        "services.flatpak.packages".toList
        (buildEntry "org.gnome.Calc".toList .flatpak false) .flatpak
      = (.alreadyPresent,
        "services.flatpak.packages = [\n  \x7b appId = \"org.gnome.Calculator\"; origin = \"flathub\"; \x7d\n];".toList)
    ∧ (∀ e ∈ readBlockEntries
        "services.flatpak.packages = [\n  \x7b appId = \"org.gnome.Calculator\"; origin = \"flathub\"; \x7d\n];".toList
        "services.flatpak.packages".toList,
        containsSub e "appId = \"org.gnome.Calc\"".toList = false) := by
  decide

/-- C4: a non-Added outcome of insertIntoNixBlock never writes (the content is
returned unchanged), and an Added outcome produces exactly the old content
with the single indented entry line spliced immediately before the
closing-delimiter line: the bytes before the splice point and from the closing
line on are byte-for-byte unchanged. -/
theorem insertIntoNixBlock_frame (content bn entry : Str) (m : InstallationMethod) :
    ((insertIntoNixBlock content bn entry m).1 ≠ .added →
      (insertIntoNixBlock content bn entry m).2 = content)
    ∧ ((insertIntoNixBlock content bn entry m).1 = .added →
      ∃ P S, content = P ++ S ∧
        (insertIntoNixBlock content bn entry m).2 = P ++ spaces4 ++ entry ++ '\n' :: S ∧
        containsSub (S.takeWhile (· ≠ '\n')) closeBracketStr = true) := by
  constructor
  · intro hne
    cases hscan : blockScan (linesOf content) bn with
    | none => rw [blockScan_none hscan entry m content rfl]
    | some boc =>
      obtain ⟨b, o, c⟩ := boc
      rw [insertIntoNixBlock_of_scan hscan] at hne ⊢
      by_cases hp : (((linesOf content).drop (o + 1)).take (c - (o + 1))).any
          (presenceLine m entry) = true
      · rw [if_pos hp]
      · rw [if_neg hp] at hne
        exact absurd rfl hne
  · intro hadd
    cases hscan : blockScan (linesOf content) bn with
    | none =>
      rw [blockScan_none hscan entry m content rfl] at hadd
      simp at hadd
    | some boc =>
      obtain ⟨b, o, c⟩ := boc
      rw [insertIntoNixBlock_of_scan hscan] at hadd ⊢
      by_cases hp : (((linesOf content).drop (o + 1)).take (c - (o + 1))).any
          (presenceLine m entry) = true
      · rw [if_pos hp] at hadd
        simp at hadd
      · rw [if_neg hp]
        obtain ⟨hb, ho, hc, hbo, hoc⟩ := blockScan_some hscan
        obtain ⟨pre3, lc, suf3, hdeq, hlen3, hpre3, hlc⟩ := findFirst_eq_some_decomp hc
        obtain ⟨htake, hdrop⟩ := take_drop_of_drop_decomp hdeq
        have hco : o + pre3.length = c := by omega
        rw [hco] at htake hdrop
        have hcontent : content = joinWith '\n' (linesOf content) :=
          (joinWith_splitOnChar '\n' content).symm
        have hnf : ∀ l ∈ linesOf content, '\n' ∉ l :=
          fun l hl => mem_splitOnChar_not_mem l hl
        have hAD : linesOf content = (linesOf content).take c ++ lc :: suf3 := by
          rw [← hdrop, List.take_append_drop]
        have hlcmem : lc ∈ linesOf content := by
          rw [hAD]
          exact List.mem_append_right _ (List.mem_cons_self lc suf3)
        have hlcnf : '\n' ∉ lc := hnf lc hlcmem
        have hlc' : containsSub lc closeBracketStr = true := by simpa using hlc
        have hStw : ((joinWith '\n' (lc :: suf3)).takeWhile (· ≠ '\n')) = lc := by
          cases suf3 with
          | nil => exact takeWhile_eq_self_of_not_mem hlcnf
          | cons s ss =>
            show ((lc ++ '\n' :: joinWith '\n' (s :: ss)).takeWhile (· ≠ '\n')) = lc
            exact takeWhile_append_stop hlcnf
        cases hA : (linesOf content).take c with
        | nil =>
          refine ⟨[], joinWith '\n' (lc :: suf3), ?_, ?_, ?_⟩
          · conv_lhs => rw [hcontent, hAD, hA]
            simp
          · show joinWith '\n' ([] ++ [spaces4 ++ entry] ++ (linesOf content).drop c) = _
            rw [hdrop, List.nil_append]
            rw [joinWith_append '\n' [spaces4 ++ entry] (lc :: suf3) (by simp) (by simp)]
            simp [List.append_assoc, joinWith]
          · rw [hStw]
            exact hlc'
        | cons a as =>
          refine ⟨joinWith '\n' (a :: as) ++ ['\n'], joinWith '\n' (lc :: suf3), ?_, ?_, ?_⟩
          · conv_lhs => rw [hcontent, hAD, hA]
            rw [joinWith_append '\n' (a :: as) (lc :: suf3) (by simp) (by simp)]
            simp
          · show joinWith '\n' ((a :: as) ++ [spaces4 ++ entry] ++ (linesOf content).drop c) = _
            rw [hdrop, List.append_assoc]
            rw [joinWith_append '\n' (a :: as) ([spaces4 ++ entry] ++ lc :: suf3)
              (by simp) (by simp)]
            rw [joinWith_append '\n' [spaces4 ++ entry] (lc :: suf3) (by simp) (by simp)]
            simp [List.append_assoc, joinWith]
          · rw [hStw]
            exact hlc'

/-- C1 counterexample: on the single-line block "home.packages = [ ];" the
label, opening and closing bracket share one line, so the first call splices
the entry above that line, and the second identical call returns Added again
and changes the content a second time, refuting idempotence as stated. -/
theorem insert_idempotence_counterexample :
    (insertIntoNixBlock "home.packages = [ ];".toList "home.packages".toList
        "pkgs.firefox".toList .homeManager).1 = .added
    ∧ (insertIntoNixBlock
        (insertIntoNixBlock "home.packages = [ ];".toList "home.packages".toList
          "pkgs.firefox".toList .homeManager).2
        "home.packages".toList "pkgs.firefox".toList .homeManager).1 = .added
    ∧ (insertIntoNixBlock
        (insertIntoNixBlock "home.packages = [ ];".toList "home.packages".toList
          "pkgs.firefox".toList .homeManager).2
        "home.packages".toList "pkgs.firefox".toList .homeManager).2
      ≠ (insertIntoNixBlock "home.packages = [ ];".toList "home.packages".toList
          "pkgs.firefox".toList .homeManager).2 := by
  decide

/-- C1 (amended): insertIntoNixBlock is idempotent whenever the opening and
closing delimiter lines of the block are distinct (o < c) and the entry is a
single trimmed line not containing a newline or closing bracket: if a call
returns Added, the identical second call returns AlreadyPresent and leaves the
written content unchanged. -/
theorem insertIntoNixBlock_idempotent (content bn entry : Str) (m : InstallationMethod)
    (b o c : Nat)
    (hscan : blockScan (linesOf content) bn = some (b, o, c))
    (hoc : o < c)
    (hnl : '\n' ∉ entry) (hcb : ']' ∉ entry)
    (htrim : trimSpace entry = entry)
    (hadd : (insertIntoNixBlock content bn entry m).1 = .added) :
    insertIntoNixBlock (insertIntoNixBlock content bn entry m).2 bn entry m
      = (.alreadyPresent, (insertIntoNixBlock content bn entry m).2) := by
  by_cases hp : (((linesOf content).drop (o + 1)).take (c - (o + 1))).any
      (presenceLine m entry) = true
  · rw [insertIntoNixBlock_of_scan hscan, if_pos hp] at hadd
    simp at hadd
  · have hres : insertIntoNixBlock content bn entry m
        = (.added, joinWith '\n' ((linesOf content).take c ++ [spaces4 ++ entry] ++
            (linesOf content).drop c)) := by
      rw [insertIntoNixBlock_of_scan hscan, if_neg hp]
    rw [hres]
    show insertIntoNixBlock (joinWith '\n' ((linesOf content).take c ++ [spaces4 ++ entry] ++
        (linesOf content).drop c)) bn entry m
      = (.alreadyPresent, joinWith '\n' ((linesOf content).take c ++ [spaces4 ++ entry] ++
        (linesOf content).drop c))
    obtain ⟨hbF, hoF, hcF, hbo, _⟩ := blockScan_some hscan
    have hnfx : '\n' ∉ spaces4 ++ entry := by
      intro hmem
      rcases List.mem_append.1 hmem with h | h
      · simp [spaces4] at h
      · exact hnl h
    have hnew_nf : ∀ l ∈ (linesOf content).take c ++ [spaces4 ++ entry] ++
        (linesOf content).drop c, '\n' ∉ l := by
      intro l hl
      rcases List.mem_append.1 hl with hl | hl
      · rcases List.mem_append.1 hl with hl | hl
        · exact mem_splitOnChar_not_mem l ((List.take_sublist c _).subset hl)
        · rw [List.mem_singleton] at hl
          subst hl
          exact hnfx
      · exact mem_splitOnChar_not_mem l ((List.drop_sublist c _).subset hl)
    have hlines1 : linesOf (joinWith '\n' ((linesOf content).take c ++ [spaces4 ++ entry] ++
        (linesOf content).drop c))
        = (linesOf content).take c ++ [spaces4 ++ entry] ++ (linesOf content).drop c :=
      splitOnChar_joinWith '\n' _ (by simp) hnew_nf
    have hxcb : containsSub (spaces4 ++ entry) closeBracketStr = false := by
      cases hxc : containsSub (spaces4 ++ entry) closeBracketStr with
      | false => rfl
      | true =>
        exfalso
        have hmem := containsSub_singleton_iff_mem.1 hxc
        rcases List.mem_append.1 hmem with h | h
        · simp [spaces4] at h
        · exact hcb h
    have hscan1 := blockScan_insert_shift hbF hoF hcF hbo hoc hxcb
    rw [← hlines1] at hscan1
    have hclen : c < (linesOf content).length := by
      obtain ⟨pre3, lc, suf3, hdeq3, hlen3, _, _⟩ := findFirst_eq_some_decomp hcF
      have h2 := (take_drop_of_drop_decomp hdeq3).2
      rw [hlen3, show o + (c - o) = c from by omega] at h2
      have h3 := congrArg List.length h2
      rw [List.length_drop, List.length_cons] at h3
      omega
    have hx_pres : presenceLine m entry (spaces4 ++ entry) = true := by
      cases m with
      | flatpak =>
        have hsuf : containsSub (spaces4 ++ entry) entry = true :=
          containsSub_of_suffix ⟨spaces4, rfl⟩
        simp [presenceLine, hsuf]
      | homeManager =>
        simp only [presenceLine]
        rw [trimSpace_spaces4_append, htrim]
        simp
      | nixEnv =>
        simp only [presenceLine]
        rw [trimSpace_spaces4_append, htrim]
        simp
    have hscanned := scanned_insert_shift (spaces4 ++ entry) hoc hclen
    have hpres1 : (((linesOf (joinWith '\n' ((linesOf content).take c ++ [spaces4 ++ entry] ++
        (linesOf content).drop c))).drop (o + 1)).take (c + 1 - (o + 1))).any
        (presenceLine m entry) = true := by
      rw [hlines1, hscanned, List.any_append]
      simp [hx_pres]
    rw [insertIntoNixBlock_of_scan hscan1, if_pos hpres1]

/-- Witness for C1 (amended): a two-line block accepts pkgs.firefox once, and
the second identical insert reports AlreadyPresent without changing the file. -/
theorem insertIntoNixBlock_idempotent_witness :
    insertIntoNixBlock
      (insertIntoNixBlock "home.packages = [\n  pkgs.vim\n];".toList "home.packages".toList
        "pkgs.firefox".toList .homeManager).2
      "home.packages".toList "pkgs.firefox".toList .homeManager
    = (.alreadyPresent,
        (insertIntoNixBlock "home.packages = [\n  pkgs.vim\n];".toList "home.packages".toList
          "pkgs.firefox".toList .homeManager).2) :=
  insertIntoNixBlock_idempotent "home.packages = [\n  pkgs.vim\n];".toList
    "home.packages".toList "pkgs.firefox".toList .homeManager 0 0 2
    (by decide) (by decide) (by decide) (by decide) (by decide) (by decide)

/-- C7: both SectionEditor operations write only on an affirmative trimmed
lowercased response: with any non-affirmative response the content is returned
unchanged and, unless the no-prompt already-exists path was taken, the outcome
is Cancelled; any two non-affirmative responses produce identical outcomes. -/
theorem section_write_requires_affirmative (content mPath iName iUrl r r' : Str)
    (hr : affirmative r = false) (hr' : affirmative r' = false) :
    ((addModule content mPath r).2 = content
      ∧ (containsSub content mPath = false →
          addModule content mPath r = (.cancelled, content))
      ∧ addModule content mPath r = addModule content mPath r')
    ∧ ((addInput content iName iUrl r).2 = content
      ∧ (containsSub content (iName ++ ".url".toList) = false →
          addInput content iName iUrl r = (.cancelled, content))
      ∧ addInput content iName iUrl r = addInput content iName iUrl r') := by
  constructor
  · by_cases hc : containsSub content mPath = true
    · have hstep : ∀ rr : Str, addModule content mPath rr = (.alreadyExists, content) := by
        intro rr
        unfold addModule
        rw [if_pos hc]
      rw [hstep r, hstep r']
      refine ⟨rfl, ?_, rfl⟩
      intro hcon
      rw [hc] at hcon
      cases hcon
    · have hc2 : containsSub content mPath = false := by simpa using hc
      have hstep : ∀ rr : Str, affirmative rr = false →
          addModule content mPath rr = (.cancelled, content) := by
        intro rr hrr
        unfold addModule
        rw [if_neg (by simp [hc2]), if_pos (by simp [hrr])]
      rw [hstep r hr, hstep r' hr']
      exact ⟨rfl, fun _ => rfl, rfl⟩
  · by_cases hc : containsSub content (iName ++ ".url".toList) = true
    · have hstep : ∀ rr : Str, addInput content iName iUrl rr = (.alreadyExists, content) := by
        intro rr
        unfold addInput
        rw [if_pos hc]
      rw [hstep r, hstep r']
      refine ⟨rfl, ?_, rfl⟩
      intro hcon
      rw [hc] at hcon
      cases hcon
    · have hc2 : containsSub content (iName ++ ".url".toList) = false := by simpa using hc
      have hstep : ∀ rr : Str, affirmative rr = false →
          addInput content iName iUrl rr = (.cancelled, content) := by
        intro rr hrr
        unfold addInput
        rw [if_neg (by simp only [Bool.not_eq_true]; exact hc2)]
        dsimp only
        rw [if_pos (by simp [hrr])]
      rw [hstep r hr, hstep r' hr']
      exact ⟨rfl, fun _ => rfl, rfl⟩

/-- Witness for C7: a negative and an unparsable response both cancel the
module insertion and the input insertion on a concrete flake without writing. -/
theorem section_write_requires_affirmative_witness :
    addModule "modules = [\n];".toList "./new.nix".toList "n".toList
      = (.cancelled, "modules = [\n];".toList)
    ∧ addInput "inputs = \x7b\n\x7d;".toList "unstable".toList "github:x/y".toList
        "whatever".toList
      = (.cancelled, "inputs = \x7b\n\x7d;".toList) :=
  ⟨(section_write_requires_affirmative "modules = [\n];".toList "./new.nix".toList
      "unstable".toList "github:x/y".toList "n".toList "whatever".toList
      (by decide) (by decide)).1.2.1 (by decide),
   (section_write_requires_affirmative "inputs = \x7b\n\x7d;".toList "./new.nix".toList
      "unstable".toList "github:x/y".toList "whatever".toList "n".toList
      (by decide) (by decide)).2.2.1 (by decide)⟩

/-- C10: when the block label, the opening bracket and the closing bracket all
sit on one line and no carriage returns are involved, insertIntoNixBlock
returns Added but splices the indented entry line immediately before that
whole line -- outside the bracket pair -- so readBlockEntries on the written
content returns exactly what it returned before, and in particular never the
inserted entry when it was not already present. -/
theorem insert_single_line_block (content bn e : Str) (m : InstallationMethod) (b : Nat)
    (hcr : '\r' ∉ content)
    (hb : findFirst (fun l => containsSub l bn) (linesOf content) = some b)
    (ho : findFirst (fun l => containsSub l openBracketStr) ((linesOf content).drop b)
      = some 0)
    (hc : findFirst (fun l => containsSub l closeBracketStr) ((linesOf content).drop b)
      = some 0)
    (hnl : '\n' ∉ e) (hcre : '\r' ∉ e)
    (hbn : containsSub (spaces4 ++ e) bn = false) :
    (insertIntoNixBlock content bn e m).1 = .added
    ∧ (insertIntoNixBlock content bn e m).2
        = joinWith '\n'
            ((linesOf content).take b ++ [spaces4 ++ e] ++ (linesOf content).drop b)
    ∧ readBlockEntries (insertIntoNixBlock content bn e m).2 bn
        = readBlockEntries content bn := by
  have hc0 : findFirst (fun l => containsSub l closeBracketStr)
      ((linesOf content).drop (b + 0)) = some 0 := by
    rwa [Nat.add_zero]
  have hscan : blockScan (linesOf content) bn = some (b, b, b) := by
    have h1 := blockScan_construct hb ho hc0
    simpa using h1
  have hpres_empty : (((linesOf content).drop (b + 1)).take (b - (b + 1))) = [] := by
    rw [show b - (b + 1) = 0 from by omega]
    exact List.take_zero _
  have hres : insertIntoNixBlock content bn e m
      = (.added, joinWith '\n'
          ((linesOf content).take b ++ [spaces4 ++ e] ++ (linesOf content).drop b)) := by
    rw [insertIntoNixBlock_of_scan hscan, hpres_empty]
    simp
  refine ⟨by rw [hres], by rw [hres], ?_⟩
  rw [hres]
  obtain ⟨pre, lb, suf, hdeq, hlen, hpre, hlb⟩ := findFirst_eq_some_decomp hb
  have hdropb : (linesOf content).drop b = lb :: suf := by
    rw [hdeq]
    exact List.drop_left' hlen
  have htakeb : (linesOf content).take b = pre := by
    rw [hdeq]
    exact List.take_left' hlen
  have hlbo : containsSub lb openBracketStr = true := by
    rw [hdropb] at ho
    obtain ⟨pre0, a0, suf0, heq0, hlen0, _, ha0⟩ := findFirst_eq_some_decomp ho
    rw [List.length_eq_zero.1 hlen0, List.nil_append] at heq0
    cases heq0
    exact ha0
  have hlbne : lb ≠ [] := by
    intro h
    rw [h] at hlbo
    exact absurd hlbo (by decide)
  have hcrL : ∀ l ∈ linesOf content, '\r' ∉ l :=
    fun l hl hm => hcr (mem_of_mem_splitOnChar hl hm)
  have hcrx : '\r' ∉ spaces4 ++ e := by
    intro hmem
    rcases List.mem_append.1 hmem with h | h
    · simp [spaces4] at h
    · exact hcre h
  have hnfx : '\n' ∉ spaces4 ++ e := by
    intro hmem
    rcases List.mem_append.1 hmem with h | h
    · simp [spaces4] at h
    · exact hnl h
  obtain ⟨T, hTdef⟩ := exists_dropTrailingBlank_cons suf hlbne
  have hTsub : ∀ l ∈ lb :: T, l ∈ lb :: suf := by
    intro l hl
    rw [← hTdef] at hl
    exact mem_of_mem_dropTrailingBlank hl
  have hold : scanLines content = pre ++ lb :: T := by
    rw [scanLines_eq]
    have hshape : linesOf content = pre ++ (lb :: suf) := hdeq
    rw [hshape, dropTrailingBlank_append (by simp), hTdef]
    apply map_dropCR_of_no_cr
    intro l hl
    rcases List.mem_append.1 hl with h | h
    · exact hcrL l (hshape ▸ List.mem_append_left _ h)
    · exact hcrL l (hshape ▸ List.mem_append_right _ (hTsub l h))
  have hnew_nf : ∀ l ∈ pre ++ [spaces4 ++ e] ++ (lb :: suf), '\n' ∉ l := by
    intro l hl
    rcases List.mem_append.1 hl with hl | hl
    · rcases List.mem_append.1 hl with hl | hl
      · exact mem_splitOnChar_not_mem l (hdeq ▸ List.mem_append_left _ hl)
      · rw [List.mem_singleton] at hl
        subst hl
        exact hnfx
    · exact mem_splitOnChar_not_mem l (hdeq ▸ List.mem_append_right _ hl)
  have hnewlines : linesOf (joinWith '\n'
      ((linesOf content).take b ++ [spaces4 ++ e] ++ (linesOf content).drop b))
      = pre ++ [spaces4 ++ e] ++ (lb :: suf) := by
    rw [htakeb, hdropb]
    exact splitOnChar_joinWith '\n' _ (by simp) hnew_nf
  have hnew : scanLines (joinWith '\n'
      ((linesOf content).take b ++ [spaces4 ++ e] ++ (linesOf content).drop b))
      = pre ++ (spaces4 ++ e) :: lb :: T := by
    rw [scanLines_eq, hnewlines]
    have hshape2 : pre ++ [spaces4 ++ e] ++ (lb :: suf)
        = (pre ++ [spaces4 ++ e]) ++ (lb :: suf) := rfl
    rw [hshape2, dropTrailingBlank_append (by simp), hTdef]
    have hmap : ((pre ++ [spaces4 ++ e]) ++ lb :: T).map dropCR
        = (pre ++ [spaces4 ++ e]) ++ lb :: T := by
      apply map_dropCR_of_no_cr
      intro l hl
      rcases List.mem_append.1 hl with hl | hl
      · rcases List.mem_append.1 hl with hl | hl
        · exact hcrL l (hdeq ▸ List.mem_append_left _ hl)
        · rw [List.mem_singleton] at hl
          subst hl
          exact hcrx
      · exact hcrL l (hdeq ▸ List.mem_append_right _ (hTsub l hl))
    rw [hmap]
    simp
  show readLoop bn (scanLines _) false = readLoop bn (scanLines content) false
  rw [hold, hnew, readLoop_append_skip _ hpre, readLoop_append_skip _ hpre,
    readLoop_skip_one _ hbn]

/-- Witness for C10: inserting pkgs.firefox into the single-line file
"home.packages = [ ];" returns Added, splices the line above the block line,
and a subsequent readBlockEntries is unchanged (it returns no entries). -/
theorem insert_single_line_block_witness :
    (insertIntoNixBlock "home.packages = [ ];".toList "home.packages".toList
      "pkgs.firefox".toList .homeManager).1 = .added
    ∧ (insertIntoNixBlock "home.packages = [ ];".toList "home.packages".toList
        "pkgs.firefox".toList .homeManager).2
      = joinWith '\n'
          ((linesOf "home.packages = [ ];".toList).take 0 ++
            [spaces4 ++ "pkgs.firefox".toList] ++
            (linesOf "home.packages = [ ];".toList).drop 0)
    ∧ readBlockEntries
        (insertIntoNixBlock "home.packages = [ ];".toList "home.packages".toList
          "pkgs.firefox".toList .homeManager).2 "home.packages".toList
      = readBlockEntries "home.packages = [ ];".toList "home.packages".toList :=
  insert_single_line_block "home.packages = [ ];".toList "home.packages".toList
    "pkgs.firefox".toList .homeManager 0 (by decide) (by decide) (by decide) (by decide)
    (by decide) (by decide) (by decide)

/-- C3: whenever installPackage reaches the already-installed check with a
resolved name (the package exists per the local database for non-Flatpak
methods, or Flathub resolution succeeded for the Flatpak method) and
presentInFlake finds the resolved name among the entries collected from every
block of every file of the tree, installPackage reports already-installed and
returns the tree without any write. -/
theorem installPackage_already_installed (pkgName : Str) (tree : List NixFile)
    (m : InstallationMethod) (unstable : Bool) (env : InstallEnv) (p : Str)
    (hdb : m = .flatpak ∨ env.dbHasPkg = true)
    (hres : resolveName pkgName m env = some p)
    (hp : presentInFlake p tree m = true) :
    installPackage pkgName tree m unstable env = (.alreadyInstalled p, tree) := by
  have hguard : (decide (m ≠ InstallationMethod.flatpak) && !env.dbHasPkg) = false := by
    rcases hdb with rfl | hdb
    · simp
    · simp [hdb]
  unfold installPackage
  rw [if_neg (by rw [hguard]; simp), hres]
  dsimp only
  rw [if_pos hp]

/-- Witness for C3: a tree whose home.packages block already holds
pkgs.firefox makes installPackage report already-installed and return the
tree unchanged. -/
theorem installPackage_already_installed_witness :
    installPackage "firefox".toList
      [⟨"packages/home-packages.nix".toList,
        "home.packages = [\n  pkgs.firefox\n];".toList⟩]
      .homeManager false
      ⟨true, none, "flake.nix".toList, "y".toList, "y".toList, "y".toList, []⟩
    = (.alreadyInstalled "firefox".toList,
      [⟨"packages/home-packages.nix".toList,
        "home.packages = [\n  pkgs.firefox\n];".toList⟩]) :=
  installPackage_already_installed "firefox".toList
    [⟨"packages/home-packages.nix".toList, "home.packages = [\n  pkgs.firefox\n];".toList⟩]
    .homeManager false
    ⟨true, none, "flake.nix".toList, "y".toList, "y".toList, "y".toList, []⟩
    "firefox".toList (Or.inr rfl) rfl (by decide)

theorem filter_map_comm {α β : Type} (f : α → β) (p : β → Bool) (l : List α) :
    (l.filter (fun a => p (f a))).map f = (l.map f).filter p := by
  induction l with
  | nil => rfl
  | cons a t ih =>
    simp only [List.filter_cons, List.map_cons]
    cases hp : p (f a)
    · simp [hp, ih]
    · simp [hp, ih]

/-- C5 counterexample: on a concrete table holding an exact match, the
local-index search returns the exact-matching record twice -- once from the
exact tier and again from the starts-with tier, which does not exclude exact
matches -- so the result is not duplicate-free and its second tier is not
"starts with but not exact". -/
theorem searchLocalDb_duplicate_exact :
    (searchLocalDb "exactmatch".toList
      [⟨[], "exactmatch".toList, []⟩, ⟨[], "exactmatch-suffix".toList, []⟩,
        ⟨[], "zzzexactmatchzzz".toList, []⟩]).map PackageInfo.pname
      = ["exactmatch".toList, "exactmatch".toList, "exactmatch-suffix".toList,
        "zzzexactmatchzzz".toList]
    ∧ ¬ ((searchLocalDb "exactmatch".toList
      [⟨[], "exactmatch".toList, []⟩, ⟨[], "exactmatch-suffix".toList, []⟩,
        ⟨[], "zzzexactmatchzzz".toList, []⟩]).map PackageInfo.pname).Nodup := by
  decide

/-- C5 (amended): the remote Flathub adapter implements the claim's three
disjoint tiers exactly (its ranking refines the spec-worded specTierSearch,
is capped at 10 and, for result sets with distinct lowercased ids, is
duplicate-free), while the local-index path implements the loose tiering in
which the second tier includes the exact matches again (specTierSearchLoose),
also capped at 10. -/
theorem search_three_tier_ranking (query : Str) (apps : List FlathubApp)
    (T : List PackageInfo)
    (hnd : (apps.map (fun a => lowerStr a.flatpakAppId)).Nodup) :
    rankFlathubApps query apps = specTierSearch query (apps.map toPackageInfo)
    ∧ (rankFlathubApps query apps).length ≤ 10
    ∧ (searchLocalDb query T).length ≤ 10
    ∧ ((rankFlathubApps query apps).map PackageInfo.pname).Nodup
    ∧ searchLocalDb query T = specTierSearchLoose query T := by
  have hA : rankFlathubApps query apps
      = ((apps.filter (fun a => lowerStr a.flatpakAppId == lowerStr query)
          ++ apps.filter (fun a => !(lowerStr a.flatpakAppId == lowerStr query)
              && (lowerStr query).isPrefixOf (lowerStr a.flatpakAppId))
          ++ apps.filter (fun a => !(lowerStr a.flatpakAppId == lowerStr query)
              && !((lowerStr query).isPrefixOf (lowerStr a.flatpakAppId))
              && containsSub (lowerStr a.flatpakAppId) (lowerStr query))).map
          toPackageInfo).take 10 := rfl
  have h3 : apps.filter (fun a => !(lowerStr a.flatpakAppId == lowerStr query)
        && !((lowerStr query).isPrefixOf (lowerStr a.flatpakAppId))
        && containsSub (lowerStr a.flatpakAppId) (lowerStr query))
      = apps.filter (fun a => !((lowerStr query).isPrefixOf (lowerStr a.flatpakAppId))
          && containsSub (lowerStr a.flatpakAppId) (lowerStr query)) := by
    apply List.filter_congr
    intro a _
    cases heq : (lowerStr a.flatpakAppId == lowerStr query) with
    | false => simp
    | true =>
      have hpref : (lowerStr query).isPrefixOf (lowerStr a.flatpakAppId) = true := by
        rw [eq_of_beq heq]
        exact List.isPrefixOf_iff_prefix.2 (List.prefix_refl _)
      simp [hpref]
  refine ⟨?_, ?_, ?_, ?_, rfl⟩
  · rw [hA, h3]
    have hB : specTierSearch query (apps.map toPackageInfo)
        = (((apps.map toPackageInfo).filter (fun r => lowerStr r.pname == lowerStr query)
            ++ (apps.map toPackageInfo).filter
                (fun r => !(lowerStr r.pname == lowerStr query)
                  && (lowerStr query).isPrefixOf (lowerStr r.pname))
            ++ (apps.map toPackageInfo).filter (fun r =>
                !((lowerStr query).isPrefixOf (lowerStr r.pname))
                  && containsSub (lowerStr r.pname) (lowerStr query)))).take 10 := rfl
    rw [hB,
      ← filter_map_comm toPackageInfo (fun r => lowerStr r.pname == lowerStr query) apps,
      ← filter_map_comm toPackageInfo (fun r => !(lowerStr r.pname == lowerStr query)
          && (lowerStr query).isPrefixOf (lowerStr r.pname)) apps,
      ← filter_map_comm toPackageInfo (fun r =>
          !((lowerStr query).isPrefixOf (lowerStr r.pname))
            && containsSub (lowerStr r.pname) (lowerStr query)) apps,
      List.map_append, List.map_append]
    rfl
  · rw [hA]
    exact List.length_take_le 10 _
  · show ((_ : List PackageInfo).take 10).length ≤ 10
    exact List.length_take_le 10 _
  · have hX : (rankFlathubApps query apps).map PackageInfo.pname
        = ((apps.filter (fun a => lowerStr a.flatpakAppId == lowerStr query)
            ++ apps.filter (fun a => !(lowerStr a.flatpakAppId == lowerStr query)
                && (lowerStr query).isPrefixOf (lowerStr a.flatpakAppId))
            ++ apps.filter (fun a => !(lowerStr a.flatpakAppId == lowerStr query)
                && !((lowerStr query).isPrefixOf (lowerStr a.flatpakAppId))
                && containsSub (lowerStr a.flatpakAppId) (lowerStr query))).map
            (fun a => a.flatpakAppId)).take 10 := by
      rw [hA, List.map_take, List.map_map]
      rfl
    rw [hX]
    apply List.Nodup.sublist (List.take_sublist 10 _)
    have hS : (((apps.filter (fun a => lowerStr a.flatpakAppId == lowerStr query)
          ++ apps.filter (fun a => !(lowerStr a.flatpakAppId == lowerStr query)
              && (lowerStr query).isPrefixOf (lowerStr a.flatpakAppId))
          ++ apps.filter (fun a => !(lowerStr a.flatpakAppId == lowerStr query)
              && !((lowerStr query).isPrefixOf (lowerStr a.flatpakAppId))
              && containsSub (lowerStr a.flatpakAppId) (lowerStr query))).map
          (fun a => lowerStr a.flatpakAppId))).Nodup := by
      have hpart : ∀ p : FlathubApp → Bool,
          ((apps.filter p).map (fun a => lowerStr a.flatpakAppId)).Nodup :=
        fun p => List.Nodup.sublist ((List.filter_sublist apps).map _) hnd
      have hgrab : ∀ (p : FlathubApp → Bool) (x : Str),
          x ∈ (apps.filter p).map (fun a => lowerStr a.flatpakAppId) →
          ∃ a, p a = true ∧ lowerStr a.flatpakAppId = x := by
        intro p x hx
        obtain ⟨a, hamem, hax⟩ := List.mem_map.1 hx
        exact ⟨a, (List.mem_filter.1 hamem).2, hax⟩
      rw [List.map_append, List.map_append, List.nodup_append, List.nodup_append,
        List.disjoint_append_left]
      refine ⟨⟨hpart _, hpart _, ?_⟩, hpart _, ?_, ?_⟩
      · intro x hx1 hx2
        obtain ⟨a1, hp1, hax1⟩ := hgrab _ x hx1
        obtain ⟨a2, hp2, hax2⟩ := hgrab _ x hx2
        rw [Bool.and_eq_true] at hp2
        rw [hax1] at hp1
        have h2' := hp2.1
        rw [hax2, hp1] at h2'
        simp at h2'
      · intro x hx1 hx3
        obtain ⟨a1, hp1, hax1⟩ := hgrab _ x hx1
        obtain ⟨a3, hp3, hax3⟩ := hgrab _ x hx3
        rw [Bool.and_eq_true, Bool.and_eq_true] at hp3
        rw [hax1] at hp1
        have h3' := hp3.1.1
        rw [hax3, hp1] at h3'
        simp at h3'
      · intro x hx2 hx3
        obtain ⟨a2, hp2, hax2⟩ := hgrab _ x hx2
        obtain ⟨a3, hp3, hax3⟩ := hgrab _ x hx3
        rw [Bool.and_eq_true] at hp2
        rw [Bool.and_eq_true, Bool.and_eq_true] at hp3
        have h2' := hp2.2
        rw [hax2] at h2'
        have h3' := hp3.1.2
        rw [hax3, h2'] at h3'
        simp at h3'
    apply List.Nodup.of_map lowerStr
    rw [List.map_map]
    exact hS

/-- Witness for C5 (amended) at the spec's ranking scenario records: the
Flathub ranking equals the spec-worded tiering and is duplicate-free. -/
theorem search_three_tier_ranking_witness :
    rankFlathubApps "exactmatch".toList
      [⟨"zzzexactmatchzzz".toList, [], []⟩, ⟨"exactmatch".toList, [], []⟩,
        ⟨"exactmatch-suffix".toList, [], []⟩]
      = specTierSearch "exactmatch".toList
        ([⟨"zzzexactmatchzzz".toList, [], []⟩, ⟨"exactmatch".toList, [], []⟩,
          ⟨"exactmatch-suffix".toList, [], []⟩].map toPackageInfo)
    ∧ ((rankFlathubApps "exactmatch".toList
        [⟨"zzzexactmatchzzz".toList, [], []⟩, ⟨"exactmatch".toList, [], []⟩,
          ⟨"exactmatch-suffix".toList, [], []⟩]).map PackageInfo.pname).Nodup :=
  ⟨(search_three_tier_ranking "exactmatch".toList
      [⟨"zzzexactmatchzzz".toList, [], []⟩, ⟨"exactmatch".toList, [], []⟩,
        ⟨"exactmatch-suffix".toList, [], []⟩] [] (by decide)).1,
   (search_three_tier_ranking "exactmatch".toList
      [⟨"zzzexactmatchzzz".toList, [], []⟩, ⟨"exactmatch".toList, [], []⟩,
        ⟨"exactmatch-suffix".toList, [], []⟩] [] (by decide)).2.2.2.1⟩

/-- C2 counterexample: in a block whose closing-delimiter line carries the
last entry ("  pkgs.htop ];"), readBlockEntries returns three entries, the
insert returns Added, but the new entry is spliced before the closing line and
therefore lands before pkgs.htop: the re-read block is not the old entries
with the new one appended last. -/
theorem readEntries_roundtrip_counterexample :
    readBlockEntries "home.packages = [\n  pkgs.vim\n  pkgs.git\n  pkgs.htop ];".toList
        "home.packages".toList
      = ["pkgs.vim".toList, "pkgs.git".toList, "pkgs.htop".toList]
    ∧ (insertIntoNixBlock "home.packages = [\n  pkgs.vim\n  pkgs.git\n  pkgs.htop ];".toList
        "home.packages".toList "pkgs.firefox".toList .homeManager).1 = .added
    ∧ readBlockEntries
        (insertIntoNixBlock "home.packages = [\n  pkgs.vim\n  pkgs.git\n  pkgs.htop ];".toList
          "home.packages".toList "pkgs.firefox".toList .homeManager).2
        "home.packages".toList
      = ["pkgs.vim".toList, "pkgs.git".toList, "pkgs.firefox".toList, "pkgs.htop".toList]
    ∧ readBlockEntries
        (insertIntoNixBlock "home.packages = [\n  pkgs.vim\n  pkgs.git\n  pkgs.htop ];".toList
          "home.packages".toList "pkgs.firefox".toList .homeManager).2
        "home.packages".toList
      ≠ readBlockEntries "home.packages = [\n  pkgs.vim\n  pkgs.git\n  pkgs.htop ];".toList
          "home.packages".toList ++ ["pkgs.firefox".toList] := by
  decide

/-- C2 (amended): for a carriage-return-free file whose block opens on its
label line, closes on a later line, and whose closing-delimiter line carries
no entry text before the bracket, a successful insert of a well-formed new
entry makes readBlockEntries return exactly the old entries with the new
entry appended last. -/
theorem readBlockEntries_after_insert (content bn e4 : Str) (m : InstallationMethod)
    (b cb : Nat)
    (hcr : '\r' ∉ content)
    (hb : findFirst (fun l => containsSub l bn) (linesOf content) = some b)
    (ho : findFirst (fun l => containsSub l openBracketStr) ((linesOf content).drop b)
      = some 0)
    (hcF : findFirst (fun l => containsSub l closeBracketStr) ((linesOf content).drop b)
      = some cb)
    (hcbpos : 0 < cb)
    (hclean : trimSpace ((((linesOf content).drop (b + cb)).headD []).takeWhile (· ≠ ']'))
      = [])
    (hnl : '\n' ∉ e4) (hcre : '\r' ∉ e4) (hcb4 : ']' ∉ e4) (hcm : '#' ∉ e4)
    (htrim : trimSpace e4 = e4) (hne : e4 ≠ []) (hnbr : e4 ≠ openBracketStr)
    (hadd : (insertIntoNixBlock content bn e4 m).1 = .added) :
    readBlockEntries (insertIntoNixBlock content bn e4 m).2 bn
      = readBlockEntries content bn ++ [e4] := by
  have hc0 : findFirst (fun l => containsSub l closeBracketStr)
      ((linesOf content).drop (b + 0)) = some cb := by
    rwa [Nat.add_zero]
  have hscan : blockScan (linesOf content) bn = some (b, b, b + cb) := by
    have h1 := blockScan_construct hb ho hc0
    simpa using h1
  by_cases hp : (((linesOf content).drop (b + 1)).take (b + cb - (b + 1))).any
      (presenceLine m e4) = true
  · rw [insertIntoNixBlock_of_scan hscan, if_pos hp] at hadd
    simp at hadd
  · have hres : insertIntoNixBlock content bn e4 m
        = (.added, joinWith '\n' ((linesOf content).take (b + cb) ++ [spaces4 ++ e4] ++
            (linesOf content).drop (b + cb))) := by
      rw [insertIntoNixBlock_of_scan hscan, if_neg hp]
    rw [hres]
    show readBlockEntries (joinWith '\n' ((linesOf content).take (b + cb) ++
        [spaces4 ++ e4] ++ (linesOf content).drop (b + cb))) bn
      = readBlockEntries content bn ++ [e4]
    obtain ⟨pre, lb, suf, hdeqb, hlenb, hpreb, hlbF⟩ := findFirst_eq_some_decomp hb
    have hdropb : (linesOf content).drop b = lb :: suf := by
      rw [hdeqb]
      exact List.drop_left' hlenb
    have hlbo : containsSub lb openBracketStr = true := by
      rw [hdropb] at ho
      obtain ⟨pre0, a0, suf0, heq0, hlen0, _, ha0⟩ := findFirst_eq_some_decomp ho
      rw [List.length_eq_zero.1 hlen0, List.nil_append] at heq0
      cases heq0
      exact ha0
    obtain ⟨pre4, lc, suf4, hdeq4, hlen4, hpre4, hlcF⟩ := findFirst_eq_some_decomp hcF
    cases pre4 with
    | nil =>
      simp at hlen4
      omega
    | cons lb' I =>
      rw [hdropb, List.cons_append] at hdeq4
      injection hdeq4 with hlbeq hsuf
      subst hlbeq
      have hI : ∀ l ∈ I, containsSub l closeBracketStr = false :=
        fun l hl => hpre4 l (List.mem_cons_of_mem _ hl)
      have hlcne : lc ≠ [] := by
        intro h
        rw [h] at hlcF
        exact absurd hlcF (by decide)
      have hlenAI : (pre ++ lb :: I).length = b + cb := by
        rw [List.length_append, hlenb]
        have h5 : (lb :: I).length = cb := hlen4
        rw [h5]
      have hLshape : linesOf content = (pre ++ lb :: I) ++ lc :: suf4 := by
        rw [hdeqb, hsuf]
        simp
      have htakec : (linesOf content).take (b + cb) = pre ++ lb :: I := by
        rw [hLshape]
        exact List.take_left' hlenAI
      have hdropc : (linesOf content).drop (b + cb) = lc :: suf4 := by
        rw [hLshape]
        exact List.drop_left' hlenAI
      have hclean' : trimSpace (lc.takeWhile (· ≠ ']')) = [] := by
        rw [hdropc] at hclean
        simpa using hclean
      have hclose : closeLineEntries lc = [] := by
        simp only [closeLineEntries]
        rw [hclean']
        simp
      have hcrx : '\r' ∉ spaces4 ++ e4 := by
        intro hmem
        rcases List.mem_append.1 hmem with h | h
        · simp [spaces4] at h
        · exact hcre h
      have hnfx : '\n' ∉ spaces4 ++ e4 := by
        intro hmem
        rcases List.mem_append.1 hmem with h | h
        · simp [spaces4] at h
        · exact hnl h
      have hxcb : containsSub (spaces4 ++ e4) closeBracketStr = false := by
        cases hxc : containsSub (spaces4 ++ e4) closeBracketStr with
        | false => rfl
        | true =>
          exfalso
          have hmem := containsSub_singleton_iff_mem.1 hxc
          rcases List.mem_append.1 hmem with h | h
          · simp [spaces4] at h
          · exact hcb4 h
      have h1 : trimSpace (spaces4 ++ e4) = e4 := by
        rw [trimSpace_spaces4_append, htrim]
      have h2 : stripComment e4 = e4 := takeWhile_eq_self_of_not_mem hcm
      have hmid : midLineEntries (spaces4 ++ e4) = [e4] := by
        simp [midLineEntries, h1, h2, htrim, hne, hnbr]
      have hcrL : ∀ l ∈ linesOf content, '\r' ∉ l :=
        fun l hl hm => hcr (mem_of_mem_splitOnChar hl hm)
      obtain ⟨T, hT⟩ := exists_dropTrailingBlank_cons suf4 hlcne
      have hTmem : ∀ l ∈ lc :: T, l ∈ linesOf content := by
        intro l hl
        rw [← hT] at hl
        have h6 := mem_of_mem_dropTrailingBlank hl
        rw [hLshape]
        exact List.mem_append_right _ h6
      have hpremem : ∀ l ∈ pre ++ lb :: I, l ∈ linesOf content := by
        intro l hl
        rw [hLshape]
        exact List.mem_append_left _ hl
      have hold : scanLines content = (pre ++ lb :: I) ++ lc :: T := by
        rw [scanLines_eq, hLshape, dropTrailingBlank_append (by simp), hT]
        apply map_dropCR_of_no_cr
        intro l hl
        rcases List.mem_append.1 hl with h | h
        · exact hcrL l (hpremem l h)
        · exact hcrL l (hTmem l h)
      have hnew_nf : ∀ l ∈ (linesOf content).take (b + cb) ++ [spaces4 ++ e4] ++
          (linesOf content).drop (b + cb), '\n' ∉ l := by
        intro l hl
        rcases List.mem_append.1 hl with hl | hl
        · rcases List.mem_append.1 hl with hl | hl
          · exact mem_splitOnChar_not_mem l ((List.take_sublist _ _).subset hl)
          · rw [List.mem_singleton] at hl
            subst hl
            exact hnfx
        · exact mem_splitOnChar_not_mem l ((List.drop_sublist _ _).subset hl)
      have hlines1 : linesOf (joinWith '\n' ((linesOf content).take (b + cb) ++
          [spaces4 ++ e4] ++ (linesOf content).drop (b + cb)))
          = (linesOf content).take (b + cb) ++ [spaces4 ++ e4] ++
            (linesOf content).drop (b + cb) :=
        splitOnChar_joinWith '\n' _ (by simp) hnew_nf
      have hnewshape : (linesOf content).take (b + cb) ++ [spaces4 ++ e4] ++
          (linesOf content).drop (b + cb)
          = (pre ++ lb :: (I ++ [spaces4 ++ e4])) ++ lc :: suf4 := by
        rw [htakec, hdropc]
        simp
      have hnew : scanLines (joinWith '\n' ((linesOf content).take (b + cb) ++
          [spaces4 ++ e4] ++ (linesOf content).drop (b + cb)))
          = (pre ++ lb :: (I ++ [spaces4 ++ e4])) ++ lc :: T := by
        rw [scanLines_eq, hlines1, hnewshape, dropTrailingBlank_append (by simp), hT]
        apply map_dropCR_of_no_cr
        intro l hl
        rcases List.mem_append.1 hl with h | h
        · rcases List.mem_append.1 h with h | h
          · exact hcrL l (hpremem l (List.mem_append_left _ h))
          · rcases List.mem_cons.1 h with rfl | h
            · exact hcrL l (hpremem l (List.mem_append_right _ (List.mem_cons_self _ _)))
            · rcases List.mem_append.1 h with h | h
              · exact hcrL l (hpremem l (List.mem_append_right _
                  (List.mem_cons_of_mem _ h)))
              · rw [List.mem_singleton] at h
                subst h
                exact hcrx
        · exact hcrL l (hTmem l h)
      have hI2 : ∀ l ∈ I ++ [spaces4 ++ e4], containsSub l closeBracketStr = false := by
        intro l hl
        rcases List.mem_append.1 hl with h | h
        · exact hI l h
        · rw [List.mem_singleton] at h
          subst h
          exact hxcb
      show readLoop bn (scanLines _) false = readLoop bn (scanLines content) false ++ [e4]
      rw [hold, hnew]
      have hshape_old : (pre ++ lb :: I) ++ lc :: T = pre ++ lb :: (I ++ lc :: T) := by
        simp
      have hshape_new : (pre ++ lb :: (I ++ [spaces4 ++ e4])) ++ lc :: T
          = pre ++ lb :: ((I ++ [spaces4 ++ e4]) ++ lc :: T) := by
        simp
      rw [hshape_old, hshape_new,
        readLoop_run bn pre lb I lc T hpreb hlbF hlbo hI hlcF,
        readLoop_run bn pre lb (I ++ [spaces4 ++ e4]) lc T hpreb hlbF hlbo hI2 hlcF]
      rw [List.map_append, List.flatten_append]
      simp [hclose, hmid]

/-- Witness for C2 (amended): a three-entry block with its closing bracket on
its own line accepts pkgs.firefox and a re-read returns the three old entries
with pkgs.firefox appended last. -/
theorem readBlockEntries_after_insert_witness :
    readBlockEntries
      (insertIntoNixBlock
        "home.packages = [\n  pkgs.vim\n  pkgs.git\n  pkgs.htop\n];".toList
        "home.packages".toList "pkgs.firefox".toList .homeManager).2
      "home.packages".toList
    = readBlockEntries "home.packages = [\n  pkgs.vim\n  pkgs.git\n  pkgs.htop\n];".toList
        "home.packages".toList ++ ["pkgs.firefox".toList] :=
  readBlockEntries_after_insert
    "home.packages = [\n  pkgs.vim\n  pkgs.git\n  pkgs.htop\n];".toList
    "home.packages".toList "pkgs.firefox".toList .homeManager 0 4
    (by decide) (by decide) (by decide) (by decide) (by decide) (by decide) (by decide)
    (by decide) (by decide) (by decide) (by decide) (by decide) (by decide) (by decide)

/-- Witness for C4: both branches at concrete inputs -- a file without the
block is returned unchanged, and a successful insert splits the file into
unchanged prefix bytes, the new line, and unchanged suffix bytes. -/
theorem insertIntoNixBlock_frame_witness :
    (insertIntoNixBlock "no block".toList "home.packages".toList "pkgs.vim".toList
        .homeManager).2 = "no block".toList
    ∧ ∃ P S, "home.packages = [\n];".toList = P ++ S ∧
        (insertIntoNixBlock "home.packages = [\n];".toList "home.packages".toList
          "pkgs.vim".toList .homeManager).2
          = P ++ spaces4 ++ "pkgs.vim".toList ++ '\n' :: S ∧
        containsSub (S.takeWhile (· ≠ '\n')) closeBracketStr = true :=
  ⟨(insertIntoNixBlock_frame "no block".toList "home.packages".toList "pkgs.vim".toList
      .homeManager).1 (by decide),
   (insertIntoNixBlock_frame "home.packages = [\n];".toList "home.packages".toList
      "pkgs.vim".toList .homeManager).2 (by decide)⟩

end Apm
